import Mathlib

/-!
Verification development for the copium deep-copy engine.

The embedding follows the repository's Rust sources:

* `hash_pointer` — SplitMix64-style avalanche over the pointer value
  (src/ffi.rs / src/rust/ffi.rs).  Pointers are modelled as natural numbers
  (the "identity" of a graph node); all 64-bit wraparound arithmetic is made
  explicit with `% 2 ^ 64`.
* `MemoTable` — the open-addressing identity-keyed hash table of src/memo.rs
  (`lookup_with_hash`, `insert_with_hash`, `resize`, `clear`,
  `shrink_if_large`).  A slot holds a null key (`Slot.free`), the tombstone
  marker (`Slot.tomb`), or a live `(key, value)` pair (`Slot.entry`).  The
  unallocated (null) slot array is modelled by the empty list.  The source's
  unbounded probe loops are modelled with an explicit fuel argument; the
  development proves the fuel `size` is always sufficient on well-formed
  tables, which is exactly the termination argument for the source loops.
* A heap/interpreter model of the recursive deep-copy walk
  (src/rust/deepcopy_impl.rs, src/rust/containers.rs, src/rust/reduce.rs,
  src/rust/dispatch.rs), generic over the memo implementation exactly as the
  Rust code is generic over its `Memo` trait, instantiated at the model of
  the user-provided memo (src/rust/user_memo.rs: a Python dict keyed by the
  object's address, plus a keep-alive list).
-/

namespace Copium

/-- The 64-bit word modulus: all pointer/hash arithmetic in the source is on
`u64`/`usize` with wraparound. -/
def U64 : Nat := 2 ^ 64

/-- Model of `hash_pointer` (src/ffi.rs, src/rust/ffi.rs): SplitMix64-style
avalanche; `h ^= h >> 33; h *= 0xff51afd7ed558ccd; h ^= h >> 33;
h *= 0xc4ceb9fe1a85ec53; h ^= h >> 33`.  The final cast to the signed
`Py_hash_t` and back to `usize` at the call sites is bit-pattern preserving,
so the hash is kept as the underlying 64-bit natural number. -/
def hash_pointer (p : Nat) : Nat :=
  let h0 := p % U64
  let h1 := h0 ^^^ (h0 >>> 33)
  let h2 := (h1 * 0xff51afd7ed558ccd) % U64
  let h3 := h2 ^^^ (h2 >>> 33)
  let h4 := (h3 * 0xc4ceb9fe1a85ec53) % U64
  h4 ^^^ (h4 >>> 33)

/-- One slot of the memo table (src/memo.rs `MemoEntry`): a null key marks a
never-used slot, the all-ones `TOMBSTONE` key marks a deleted slot, and any
other key is a live entry.  Genuine keys are object addresses, never null and
never the tombstone pattern, so the three cases are disjoint. -/
inductive Slot where
  | free : Slot
  | tomb : Slot
  | entry (key : Nat) (value : Nat) : Slot
deriving DecidableEq, Repr

/-- Is this slot a live entry? -/
def isEntry : Slot → Bool
  | .entry _ _ => true
  | _ => false

/-- Is this slot non-null (a live entry or a tombstone)? -/
def nonFree : Slot → Bool
  | .free => false
  | _ => true

/-- Number of live entries in a slot array (what `used` counts). -/
def countEntries (slots : List Slot) : Nat :=
  slots.countP isEntry

/-- Number of non-null slots, live entries plus tombstones (what `filled`
counts). -/
def countFilled (slots : List Slot) : Nat :=
  slots.countP nonFree

/-- The memo table (src/memo.rs `MemoTable`): slot array plus the `used`
(live entries) and `filled` (live + tombstones) counters.  `size` is the
length of the slot array; the empty list models the null, never-allocated
array of a fresh table. -/
structure MemoTable where
  slots : List Slot
  used : Nat
  filled : Nat
deriving DecidableEq, Repr

/-- Model of `INITIAL_SIZE` (src/memo.rs). -/
def INITIAL_SIZE : Nat := 8

/-- Model of `LOAD_FACTOR_NUM` (src/memo.rs). -/
def LOAD_FACTOR_NUM : Nat := 7

/-- Model of `LOAD_FACTOR_DEN` (src/memo.rs). -/
def LOAD_FACTOR_DEN : Nat := 10

/-- Model of `RETAIN_MAX_SLOTS` (src/memo.rs): high-water mark, 131072 slots. -/
def RETAIN_MAX_SLOTS : Nat := 2 ^ 17

/-- Model of `RETAIN_SHRINK_TO` (src/memo.rs): shrink target, 8192 slots. -/
def RETAIN_SHRINK_TO : Nat := 2 ^ 13

/-- Model of `MemoTable::new` (src/memo.rs): null slot array, nothing allocated. -/
def MemoTable.new : MemoTable :=
  { slots := [], used := 0, filled := 0 }

/-- The linear-probe loop of `MemoTable::lookup_with_hash` (src/memo.rs):
starting at `idx`, a null slot means "not found", a tombstone or a
non-matching entry is skipped, a matching entry returns its value.  The
source loop is unbounded; `fuel` makes the model total, and `none` (fuel
exhausted) is proven unreachable at fuel = `slots.length` on tables whose
`filled` counter is below `size`. -/
def probeLookup (slots : List Slot) (key : Nat) (idx : Nat) : Nat → Option (Option Nat)
  | 0 => none
  | fuel + 1 =>
    match slots.getD idx .free with
    | .free => some none
    | .tomb => probeLookup slots key ((idx + 1) &&& (slots.length - 1)) fuel
    | .entry k v =>
      if k = key then some (some v)
      else probeLookup slots key ((idx + 1) &&& (slots.length - 1)) fuel

/-- Model of `MemoTable::lookup_with_hash` (src/memo.rs): the null-array guard returns
"not found" before any probing; otherwise probe linearly from
`hash & (size - 1)`. -/
def MemoTable.lookup_with_hash (t : MemoTable) (key : Nat) (hash : Nat) : Option Nat :=
  if t.slots.length = 0 then none
  else (probeLookup t.slots key (hash &&& (t.slots.length - 1)) t.slots.length).getD none

/-- The linear-probe loop of `MemoTable::insert_with_hash` (src/memo.rs):
remembers the first tombstone passed (`first_tomb`); a null slot inserts at
the first tombstone if one was seen, else at the null slot (returning
`true`: a new entry, `used` and `filled` both grow); a matching entry is
updated in place (returning `false`: counters unchanged); tombstones and
non-matching entries do not terminate the probe. -/
def probeInsert (slots : List Slot) (key value : Nat) (idx : Nat) (firstTomb : Option Nat) :
    Nat → Option (List Slot × Bool)
  | 0 => none
  | fuel + 1 =>
    match slots.getD idx .free with
    | .free =>
      some (slots.set (firstTomb.getD idx) (.entry key value), true)
    | .tomb =>
      probeInsert slots key value ((idx + 1) &&& (slots.length - 1))
        (some (firstTomb.getD idx)) fuel
    | .entry k _ =>
      if k = key then some (slots.set idx (.entry key value), false)
      else probeInsert slots key value ((idx + 1) &&& (slots.length - 1)) firstTomb fuel

/-- The probe loop used during `MemoTable::resize` migration (src/memo.rs):
the fresh table has no tombstones, so the loop only looks for the first null
slot.  Fuel as in `probeLookup`; on exhaustion the slot array is returned
unchanged (unreachable on the sizes the source ever resizes to, proven
below). -/
def probeFresh (slots : List Slot) (key value : Nat) (idx : Nat) : Nat → List Slot
  | 0 => slots
  | fuel + 1 =>
    match slots.getD idx .free with
    | .free => slots.set idx (.entry key value)
    | _ => probeFresh slots key value ((idx + 1) &&& (slots.length - 1)) fuel

/-- Migration step of `MemoTable::resize` (src/memo.rs): every live entry of
the old array is rehashed with `hash_pointer` and re-inserted into the new
array; null slots and tombstones are skipped. -/
def migrate (old : List Slot) (init : List Slot) : List Slot :=
  old.foldl
    (fun acc s =>
      match s with
      | .entry k v => probeFresh acc k v (hash_pointer k &&& (acc.length - 1)) acc.length
      | _ => acc)
    init

/-- Model of `MemoTable::resize` (src/memo.rs): allocate a zeroed array of `newSize`
slots, migrate the live entries, and set `filled = used` (no tombstones in
the new table).  With a null old array the migration loop is skipped. -/
def MemoTable.resize (t : MemoTable) (newSize : Nat) : MemoTable :=
  { slots := migrate t.slots (List.replicate newSize .free)
    used := t.used
    filled := t.used }

/-- The probe-and-write step of `MemoTable::insert_with_hash` (src/memo.rs),
after `ensure_allocated` and the load-factor check: run the probe loop from
`hash & (size - 1)` with no tombstone seen yet; a fresh slot bumps `used`
and `filled`, an in-place update leaves both counters alone.  The `none`
(fuel-exhausted) fallback is unreachable on well-formed tables — the source
loop has no such exit at all. -/
def insertFinish (t2 : MemoTable) (key value hash : Nat) : MemoTable :=
  match probeInsert t2.slots key value (hash &&& (t2.slots.length - 1)) none
      t2.slots.length with
  | some (slots', true) => { slots := slots', used := t2.used + 1, filled := t2.filled + 1 }
  | some (slots', false) => { slots := slots', used := t2.used, filled := t2.filled }
  | none => t2

/-- Model of `MemoTable::insert_with_hash` (src/memo.rs): `ensure_allocated` sizes a
null array to `INITIAL_SIZE`; then if `filled / size ≥ 0.7` the table is
resized to double capacity (the `size == 0` arm of that resize is dead after
`ensure_allocated`, and kept to mirror the source); then the probe loop
runs. -/
def MemoTable.insert_with_hash (t : MemoTable) (key value hash : Nat) : MemoTable :=
  let t1 := if t.slots.length = 0 then t.resize INITIAL_SIZE else t
  let t2 :=
    if t1.filled * LOAD_FACTOR_DEN ≥ t1.slots.length * LOAD_FACTOR_NUM then
      t1.resize (if t1.slots.length = 0 then INITIAL_SIZE else t1.slots.length * 2)
    else t1
  insertFinish t2 key value hash

/-- Model of `MemoTable::clear` (src/memo.rs): release every live value, null out all
slots, zero the counters; the capacity (array length) is retained. -/
def MemoTable.clear (t : MemoTable) : MemoTable :=
  { slots := t.slots.map fun _ => .free, used := 0, filled := 0 }

/-- Model of `MemoTable::shrink_if_large` (src/memo.rs): resize down to
`RETAIN_SHRINK_TO` only when the slot count exceeds `RETAIN_MAX_SLOTS`. -/
def MemoTable.shrink_if_large (t : MemoTable) : MemoTable :=
  if t.slots.length > RETAIN_MAX_SLOTS then t.resize RETAIN_SHRINK_TO else t

/-- Structural well-formedness of a memo table, as maintained by every
operation of src/memo.rs: the slot array is null or a power of two; no
operation of this module ever writes a tombstone (there is no deletion API),
so no reachable table contains one; and `used`/`filled` are the exact counts
of live entries / non-null slots. -/
def MemoTable.Inv (t : MemoTable) : Prop :=
  (t.slots = [] ∨ ∃ k, t.slots.length = 2 ^ k) ∧
  Slot.tomb ∉ t.slots ∧
  t.used = countEntries t.slots ∧
  t.filled = countFilled t.slots

/-- Is this slot a live entry for `key`? -/
def isEntryFor (key : Nat) : Slot → Bool
  | .entry k _ => decide (k = key)
  | _ => false

/-- Number of live entries carrying `key` — "one live entry per identity"
counts these. -/
def countKey (key : Nat) (slots : List Slot) : Nat :=
  slots.countP (isEntryFor key)

/-! ### Object-graph heap model

A graph node is an opaque handle (its identity, a `Nat` standing for the
object's address); the heap maps identities to payloads.  The payload
constructors follow the type classification of src/rust/types.rs
`classify_type` and src/rust/ffi.rs `is_immutable_literal`:

* `atom` — the immutable literal kinds (`bool`/`int`/`float`/`str`/`bytes`)
  other than `None`, plus (for src/deepcopy.rs's wider classifier) the
  builtin immutables (`range`, functions, `complex`, …); they carry no
  child references.
* `noneObj` — the `None` singleton (an immutable literal; kept separate
  because the reduce protocol compares state/items against `Py_None`).
* `typeObj` — a type object; `is_atomic_immutable` in src/deepcopy.rs
  treats it as atomic, while src/rust/types.rs sends it to the reduce path,
  where its textual decomposition returns it unchanged.
* `list`/`tup`/`dict`/`setObj`/`frozen`/`bytearr` — the exact built-in
  aggregate kinds; children are identities (bytearray data are raw bytes).
* `reduceObj red` — a node the engine only knows through the reduce
  protocol; `red` is the identity of the object its decomposition hook
  returns (`none`: no usable hook).  The extended and basic protocol tiers
  are modelled as one hook producing the same decomposition; a textual
  decomposition is any non-tuple `red` payload.
* `constructed …` — the result of calling the decomposition's constructor:
  a host-side effect, modelled as a fresh node recording the constructor,
  the cloned arguments and the state/items later applied to it. -/

inductive PyObj where
  | atom : PyObj
  | noneObj : PyObj
  | typeObj : PyObj
  | list (elems : List Nat) : PyObj
  | tup (elems : List Nat) : PyObj
  | dict (pairs : List (Nat × Nat)) : PyObj
  | setObj (elems : List Nat) : PyObj
  | frozen (elems : List Nat) : PyObj
  | bytearr (data : List Nat) : PyObj
  | reduceObj (red : Option Nat) : PyObj
  | constructed (ctor : Nat) (args : Nat) (st : Option Nat)
      (seqItems : List Nat) (mapItems : List (Nat × Nat)) : PyObj
deriving DecidableEq, Repr

/-- The heap: an association list from identity to payload plus the next
fresh address.  Python never moves objects during a copy, so identities are
stable; allocation returns a fresh address. -/
structure Heap where
  objs : List (Nat × PyObj)
  next : Nat
deriving DecidableEq, Repr

def heapGet (h : Heap) (i : Nat) : Option PyObj :=
  (h.objs.find? fun p => p.1 == i).map Prod.snd

def Heap.alloc (h : Heap) (o : PyObj) : Nat × Heap :=
  (h.next, ⟨(h.next, o) :: h.objs, h.next + 1⟩)

def Heap.setObj (h : Heap) (i : Nat) (o : PyObj) : Heap :=
  ⟨h.objs.map fun p => if p.1 = i then (i, o) else p, h.next⟩

/-- Every allocated identity is below `next` (allocation returns fresh
addresses). -/
def Heap.Fresh (h : Heap) : Prop := ∀ p ∈ h.objs, p.1 < h.next

/-- Model of `is_immutable_literal` (src/rust/ffi.rs): `None`, `bool`, `int`,
`float`, `str`, `bytes` — checked before any hashing or memo interaction. -/
def isImmutableLiteral : PyObj → Bool
  | .atom => true
  | .noneObj => true
  | _ => false

/-- The `Memo` trait (src/rust/memo_trait.rs): the deep-copy walk is generic
over the memo implementation; `lookup`/`insert` take the identity and its
precomputed hash, `keepalive` retains a reference for the lifetime of the
operation. -/
structure MemoImpl (σ : Type) where
  lookup : σ → Nat → Nat → Option Nat
  insert : σ → Nat → Nat → Nat → σ
  keepalive : σ → Nat → σ

/-- Interpreter state: the heap, the memo state, and instrumentation
counters that tick exactly where the source computes a hash
(`hash_pointer` call sites), consults the memo, inserts into the memo, or
invokes a decomposition hook.  The counters let "zero hashing / zero memo
interaction / no hook invoked" claims be stated observationally. -/
structure DCState (σ : Type) where
  heap : Heap
  memo : σ
  hashes : Nat
  lookups : Nat
  inserts : Nat
  hooks : Nat
deriving DecidableEq, Repr

/-- Failure modes of the walk.  `fuelOut` is the model's recursion bound
(the source recurses on the native stack); `badRef` marks a dangling
identity, impossible on well-formed heaps; `protocolViolation` is the
"pickle protocol expects at most 5-tuple" error; `uncopyable` is the
"cannot copy" error for objects with no usable decomposition. -/
inductive DCErr where
  | fuelOut : DCErr
  | badRef : DCErr
  | protocolViolation : DCErr
  | uncopyable : DCErr
deriving DecidableEq, Repr

abbrev DCRes (σ : Type) := Except DCErr (Nat × DCState σ)

/-- Lookup in an association list modelling a Python dict keyed by object
address (`PyLong_FromVoidPtr` keys). -/
def assocGet (m : List (Nat × Nat)) (k : Nat) : Option Nat :=
  (m.find? fun p => p.1 == k).map Prod.snd

/-- Model of `PyDict_SetItem` on an address-keyed dict: update the existing entry in
place or append a new one, preserving encounter order. -/
def assocSet (m : List (Nat × Nat)) (k v : Nat) : List (Nat × Nat) :=
  if (m.find? fun p => p.1 == k).isSome then
    m.map fun p => if p.1 = k then (k, v) else p
  else m ++ [(k, v)]

/-- Model of `UserProvidedMemo` (src/rust/user_memo.rs): the caller's Python
dict (keyed by object address) plus the keepalive list stored under
`id(memo)`. -/
structure UserMemo where
  dict : List (Nat × Nat)
  keep : List Nat
deriving DecidableEq, Repr

/-- The `Memo` instance of `UserProvidedMemo`: `lookup` ignores the
precomputed hash and goes through the dict (`PyDict_GetItem`); `insert` sets
the dict entry and appends the *original* to the keepalive list;
`keepalive` appends to the keepalive list. -/
def userMemoImpl : MemoImpl UserMemo :=
  { lookup := fun m key _hash => assocGet m.dict key
    insert := fun m key value _hash =>
      { dict := assocSet m.dict key value, keep := m.keep ++ [key] }
    keepalive := fun m obj => { dict := m.dict, keep := m.keep ++ [obj] } }

/-- A fresh walk state over a heap: empty memo, zeroed counters. -/
def DCState.init (h : Heap) : DCState UserMemo :=
  { heap := h, memo := { dict := [], keep := [] },
    hashes := 0, lookups := 0, inserts := 0, hooks := 0 }

/-- Model of `PyList_SetItem(new_list, i, item)` on the in-progress clone. -/
def listAssign (h : Heap) (lst i v : Nat) : Heap :=
  match heapGet h lst with
  | some (.list es) => h.setObj lst (.list (es.set i v))
  | _ => h

/-- Model of `PyTuple_SetItem(new_tuple, i, item)` on the in-progress clone. -/
def tupAssign (h : Heap) (t i v : Nat) : Heap :=
  match heapGet h t with
  | some (.tup es) => h.setObj t (.tup (es.set i v))
  | _ => h

/-- Model of `PyDict_SetItem(new_dict, key, value)` on the in-progress clone. -/
def dictAssign (h : Heap) (d k v : Nat) : Heap :=
  match heapGet h d with
  | some (.dict ps) => h.setObj d (.dict (assocSet ps k v))
  | _ => h

/-- Model of `PySet_Add(new_set, item)`: membership is decided by host-side value
equality, outside this identity-based model, so the clone's identity is
appended. -/
def setAdd (h : Heap) (st v : Nat) : Heap :=
  match heapGet h st with
  | some (.setObj es) => h.setObj st (.setObj (es ++ [v]))
  | _ => h

/-- Model of `PyList_Append(temp_list, item)` while staging a frozenset. -/
def listAppend (h : Heap) (lst v : Nat) : Heap :=
  match heapGet h lst with
  | some (.list es) => h.setObj lst (.list (es ++ [v]))
  | _ => h

/-- The `append`-based extension of a reconstructed object
(`populate_list_items`, src/rust/reduce.rs). -/
def ctorAppendSeq (h : Heap) (obj c : Nat) : Heap :=
  match heapGet h obj with
  | some (.constructed ct ar st li di) =>
    h.setObj obj (.constructed ct ar st (li ++ [c]) di)
  | _ => h

/-- Item assignment on a reconstructed object (`populate_dict_items`,
src/rust/reduce.rs). -/
def ctorSetMap (h : Heap) (obj k v : Nat) : Heap :=
  match heapGet h obj with
  | some (.constructed ct ar st li di) =>
    h.setObj obj (.constructed ct ar st li (assocSet di k v))
  | _ => h

/-- State application on a reconstructed object (`set_object_state`,
src/rust/reduce.rs): calling `__setstate__` or structurally updating
`__dict__`/slots is a host-side effect, modelled as attaching the cloned
state to the node. -/
def ctorSetState (h : Heap) (obj st : Nat) : Heap :=
  match heapGet h obj with
  | some (.constructed ct ar _ li di) =>
    h.setObj obj (.constructed ct ar (some st) li di)
  | _ => h

/-- The element loop of `deepcopy_list` (src/rust/containers.rs): clone each
child with `deepcopy_recursive`, store it at its index. -/
def cloneListElems (dc : Nat → DCState σ → DCRes σ) (newList : Nat) :
    List Nat → Nat → DCState σ → Except DCErr (DCState σ)
  | [], _, s => .ok s
  | e :: rest, i, s =>
    match dc e s with
    | .error err => .error err
    | .ok (c, s') =>
      cloneListElems dc newList rest (i + 1)
        { s' with heap := listAssign s'.heap newList i c }

/-- Model of `deepcopy_list` (src/rust/containers.rs): allocate the clone at the
source's size, register it in the memo under the original's identity
*before* the element loop, keep the original alive, then clone
index-by-index. -/
def deepcopy_list (M : MemoImpl σ) (dc : Nat → DCState σ → DCRes σ)
    (x : Nat) (elems : List Nat) (s : DCState σ) : DCRes σ :=
  let (newList, h1) := s.heap.alloc (.list (List.replicate elems.length 0))
  let hash := hash_pointer x
  let s1 : DCState σ :=
    { s with
      heap := h1
      hashes := s.hashes + 1
      inserts := s.inserts + 1
      memo := M.insert s.memo x newList hash }
  let s2 : DCState σ := { s1 with memo := M.keepalive s1.memo x }
  match cloneListElems dc newList elems 0 s2 with
  | .error e => .error e
  | .ok s3 => .ok (newList, s3)

/-- The pair loop of `deepcopy_dict` (src/rust/containers.rs). -/
def cloneDictPairs (dc : Nat → DCState σ → DCRes σ) (newDict : Nat) :
    List (Nat × Nat) → DCState σ → Except DCErr (DCState σ)
  | [], s => .ok s
  | (pk, pv) :: rest, s =>
    match dc pk s with
    | .error e => .error e
    | .ok (ck, s1) =>
      match dc pv s1 with
      | .error e => .error e
      | .ok (cv, s2) =>
        cloneDictPairs dc newDict rest
          { s2 with heap := dictAssign s2.heap newDict ck cv }

/-- Model of `deepcopy_dict` (src/rust/containers.rs): allocate an empty dict,
register it in the memo before recursing, then clone each key/value pair in
source order. -/
def deepcopy_dict (M : MemoImpl σ) (dc : Nat → DCState σ → DCRes σ)
    (x : Nat) (pairs : List (Nat × Nat)) (s : DCState σ) : DCRes σ :=
  let (newDict, h1) := s.heap.alloc (.dict [])
  let hash := hash_pointer x
  let s1 : DCState σ :=
    { s with
      heap := h1
      hashes := s.hashes + 1
      inserts := s.inserts + 1
      memo := M.insert s.memo x newDict hash }
  match cloneDictPairs dc newDict pairs s1 with
  | .error e => .error e
  | .ok s2 => .ok (newDict, s2)

/-- The element loop of `deepcopy_tuple` (src/rust/containers.rs), tracking
whether every cloned element came back identity-equal to its source. -/
def cloneTupElems (dc : Nat → DCState σ → DCRes σ) (newTup : Nat) :
    List Nat → Nat → Bool → DCState σ → Except DCErr (Bool × DCState σ)
  | [], _, allIdent, s => .ok (allIdent, s)
  | e :: rest, i, allIdent, s =>
    match dc e s with
    | .error err => .error err
    | .ok (c, s') =>
      cloneTupElems dc newTup rest (i + 1) (allIdent && decide (c = e))
        { s' with heap := tupAssign s'.heap newTup i c }

/-- Model of `deepcopy_tuple` (src/rust/containers.rs): build a candidate clone; if
every element cloned to itself, discard the candidate and return the
original (unregistered); otherwise, if a self-reference memoized the tuple
during the walk, discard the candidate and return the memoized clone; else
register and return the candidate.  The hash was computed by the caller and
is reused, never recomputed. -/
def deepcopy_tuple (M : MemoImpl σ) (dc : Nat → DCState σ → DCRes σ)
    (x hash : Nat) (elems : List Nat) (s : DCState σ) : DCRes σ :=
  let (newTup, h1) := s.heap.alloc (.tup (List.replicate elems.length 0))
  match cloneTupElems dc newTup elems 0 true { s with heap := h1 } with
  | .error e => .error e
  | .ok (allIdent, s2) =>
    if allIdent then .ok (x, s2)
    else
      let s3 : DCState σ := { s2 with lookups := s2.lookups + 1 }
      match M.lookup s3.memo x hash with
      | some cached => .ok (cached, s3)
      | none =>
        .ok (newTup,
          { s3 with
            inserts := s3.inserts + 1
            memo := M.insert s3.memo x newTup hash })

/-- The element loop of `deepcopy_set` (src/rust/containers.rs), iterating
the snapshot. -/
def cloneSetElems (dc : Nat → DCState σ → DCRes σ) (newSet : Nat) :
    List Nat → DCState σ → Except DCErr (DCState σ)
  | [], s => .ok s
  | e :: rest, s =>
    match dc e s with
    | .error err => .error err
    | .ok (c, s') =>
      cloneSetElems dc newSet rest { s' with heap := setAdd s'.heap newSet c }

/-- Model of `deepcopy_set` (src/rust/containers.rs): snapshot the source as a tuple
(against iterator invalidation), allocate an empty set, register it before
recursing, then clone each snapshotted element into it. -/
def deepcopy_set (M : MemoImpl σ) (dc : Nat → DCState σ → DCRes σ)
    (x : Nat) (elems : List Nat) (s : DCState σ) : DCRes σ :=
  let (_snapshot, h1) := s.heap.alloc (.tup elems)
  let (newSet, h2) := h1.alloc (.setObj [])
  let hash := hash_pointer x
  let s1 : DCState σ :=
    { s with
      heap := h2
      hashes := s.hashes + 1
      inserts := s.inserts + 1
      memo := M.insert s.memo x newSet hash }
  match cloneSetElems dc newSet elems s1 with
  | .error e => .error e
  | .ok s2 => .ok (newSet, s2)

/-- The element loop of `deepcopy_frozenset` (src/rust/containers.rs),
staging clones in a temporary growable list. -/
def cloneFrozenElems (dc : Nat → DCState σ → DCRes σ) (tempList : Nat) :
    List Nat → DCState σ → Except DCErr (DCState σ)
  | [], s => .ok s
  | e :: rest, s =>
    match dc e s with
    | .error err => .error err
    | .ok (c, s') =>
      cloneFrozenElems dc tempList rest
        { s' with heap := listAppend s'.heap tempList c }

/-- Model of `deepcopy_frozenset` (src/rust/containers.rs): snapshot, stage the
cloned elements in a temporary list, build the frozenset from it, and only
then register the result (a frozenset cannot be pre-registered before its
contents exist). -/
def deepcopy_frozenset (M : MemoImpl σ) (dc : Nat → DCState σ → DCRes σ)
    (x : Nat) (elems : List Nat) (s : DCState σ) : DCRes σ :=
  let (_snapshot, h1) := s.heap.alloc (.tup elems)
  let (tempList, h2) := h1.alloc (.list [])
  match cloneFrozenElems dc tempList elems { s with heap := h2 } with
  | .error e => .error e
  | .ok s2 =>
    let staged := match heapGet s2.heap tempList with
      | some (.list es) => es
      | _ => []
    let (newF, h3) := s2.heap.alloc (.frozen staged)
    let hash := hash_pointer x
    .ok (newF,
      { s2 with
        heap := h3
        hashes := s2.hashes + 1
        inserts := s2.inserts + 1
        memo := M.insert s2.memo x newF hash })

/-- Model of `deepcopy_bytearray` (src/rust/containers.rs): materialize an immutable
byte sequence (itself an immutable-literal kind), copy it into a fresh
mutable buffer, register the result; no recursion. -/
def deepcopy_bytearray (M : MemoImpl σ) (x : Nat) (data : List Nat)
    (s : DCState σ) : DCRes σ :=
  let (_bytes, h1) := s.heap.alloc .atom
  let (newBa, h2) := h1.alloc (.bytearr data)
  let hash := hash_pointer x
  .ok (newBa,
    { s with
      heap := h2
      hashes := s.hashes + 1
      inserts := s.inserts + 1
      memo := M.insert s.memo x newBa hash })

/-- Model of `populate_list_items` (src/rust/reduce.rs): clone and append each item;
a failed item clone is skipped, best-effort. -/
def populateSeqItems (dc : Nat → DCState σ → DCRes σ) (newObj : Nat) :
    List Nat → DCState σ → DCState σ
  | [], s => s
  | e :: rest, s =>
    match dc e s with
    | .error _ => populateSeqItems dc newObj rest s
    | .ok (c, s') =>
      populateSeqItems dc newObj rest { s' with heap := ctorAppendSeq s'.heap newObj c }

/-- Model of `populate_dict_items` (src/rust/reduce.rs): clone and item-assign each
pair; failures are skipped, best-effort. -/
def populateMapPairs (dc : Nat → DCState σ → DCRes σ) (newObj : Nat) :
    List (Nat × Nat) → DCState σ → DCState σ
  | [], s => s
  | (pk, pv) :: rest, s =>
    match dc pk s with
    | .error _ => populateMapPairs dc newObj rest s
    | .ok (ck, s1) =>
      match dc pv s1 with
      | .error _ => populateMapPairs dc newObj rest s1
      | .ok (cv, s2) =>
        populateMapPairs dc newObj rest { s2 with heap := ctorSetMap s2.heap newObj ck cv }

/-- Model of `reconstruct_from_reduce` (src/rust/reduce.rs): a non-tuple
decomposition (including the textual "immutable, return as-is" signal)
returns the original unchanged; a tuple of fewer than 2 elements returns
the original unchanged; a tuple of more than 5 elements is the
`ProtocolViolation` hard error ("pickle protocol expects at most 5-tuple").
Otherwise the args are recursively cloned, the constructor is called (a
host effect, modelled as allocating the reconstructed node), the result is
registered in the memo under the original's identity and kept alive
*before* state and items are applied, and state/sequence-items/map-items
are then applied best-effort. -/
def reconstruct_from_reduce (M : MemoImpl σ) (dc : Nat → DCState σ → DCRes σ)
    (original red : Nat) (s : DCState σ) : DCRes σ :=
  match heapGet s.heap red with
  | some (.tup relems) =>
    if relems.length < 2 then .ok (original, s)
    else if relems.length > 5 then .error .protocolViolation
    else
      let callable := relems.getD 0 0
      let args := relems.getD 1 0
      match dc args s with
      | .error e => .error e
      | .ok (newArgs, s1) =>
        let (newObj, h2) := s1.heap.alloc (.constructed callable newArgs none [] [])
        let hash := hash_pointer original
        let s2 : DCState σ :=
          { s1 with
            heap := h2
            hashes := s1.hashes + 1
            inserts := s1.inserts + 1
            memo := M.insert s1.memo original newObj hash }
        let s3 : DCState σ := { s2 with memo := M.keepalive s2.memo newObj }
        let stateStep : Except DCErr (DCState σ) :=
          if 2 < relems.length then
            let st := relems.getD 2 0
            if heapGet s3.heap st = some .noneObj then .ok s3
            else
              match dc st s3 with
              | .error e => .error e
              | .ok (newState, s4) =>
                .ok { s4 with heap := ctorSetState s4.heap newObj newState }
          else .ok s3
        match stateStep with
        | .error e => .error e
        | .ok s5 =>
          let s6 :=
            if 3 < relems.length then
              match heapGet s5.heap (relems.getD 3 0) with
              | some (.list es) => populateSeqItems dc newObj es s5
              | some (.tup es) => populateSeqItems dc newObj es s5
              | _ => s5
            else s5
          let s7 :=
            if 4 < relems.length then
              match heapGet s6.heap (relems.getD 4 0) with
              | some (.dict ps) => populateMapPairs dc newObj ps s6
              | _ => s6
            else s6
          .ok (newObj, s7)
  | _ => .ok (original, s)

/-- Model of `deepcopy_via_reduce` (src/rust/reduce.rs): invoke the decomposition
hook (both protocol tiers modelled as one hook) and reconstruct; an object
with no usable hook is uncopyable. -/
def deepcopy_via_reduce (M : MemoImpl σ) (dc : Nat → DCState σ → DCRes σ)
    (x : Nat) (red : Option Nat) (s : DCState σ) : DCRes σ :=
  match red with
  | none => .error .uncopyable
  | some r => reconstruct_from_reduce M dc x r { s with hooks := s.hooks + 1 }

/-- Model of `deepcopy_recursive` / `deepcopy_internal` (src/rust/deepcopy_impl.rs,
identical bodies): the immutable-literal fast path returns the object
itself with no hashing and no memo interaction; otherwise the hash is
computed once, the memo consulted, and on a miss the node is classified
(src/rust/types.rs `classify_type`) and dispatched
(src/rust/dispatch.rs `dispatch_deepcopy`).  A type object reaches the
reduce path, whose textual decomposition returns it unchanged.  `fuel`
bounds the recursion depth (the source recurses on the native stack). -/
def deepcopy_recursive (M : MemoImpl σ) : Nat → Nat → DCState σ → DCRes σ
  | 0, _, _ => .error .fuelOut
  | fuel + 1, x, s =>
    match heapGet s.heap x with
    | none => .error .badRef
    | some o =>
      if isImmutableLiteral o then .ok (x, s)
      else
        let hash := hash_pointer x
        let s2 : DCState σ :=
          { s with hashes := s.hashes + 1, lookups := s.lookups + 1 }
        match M.lookup s2.memo x hash with
        | some cached => .ok (cached, s2)
        | none =>
          match o with
          | .dict pairs => deepcopy_dict M (deepcopy_recursive M fuel) x pairs s2
          | .list elems => deepcopy_list M (deepcopy_recursive M fuel) x elems s2
          | .tup elems => deepcopy_tuple M (deepcopy_recursive M fuel) x hash elems s2
          | .setObj elems => deepcopy_set M (deepcopy_recursive M fuel) x elems s2
          | .frozen elems => deepcopy_frozenset M (deepcopy_recursive M fuel) x elems s2
          | .bytearr data => deepcopy_bytearray M x data s2
          | .reduceObj red => deepcopy_via_reduce M (deepcopy_recursive M fuel) x red s2
          | .constructed _ _ _ _ _ =>
            deepcopy_via_reduce M (deepcopy_recursive M fuel) x none s2
          | .typeObj => .ok (x, { s2 with hooks := s2.hooks + 1 })
          | _ => .ok (x, s2)

/-- Model of `replicate_impl` (src/rust/deepcopy_impl.rs) over the model:
`replicate(root, n)` performs `n` independent `deepcopy_impl(obj, None)`
calls, collecting the clones.

Modelled from the spec: `get_thread_local_memo`/`return_thread_local_memo`
are declared but not defined under src/; per §4.6 (clear both on exit,
return the pair to the pool) and `ThreadMemo::reset` (src/memo.rs), every
iteration starts from a cleared memo and an empty retention buffer, so each
call runs with a fresh, empty memo state (`DCState.init`). -/
def replicate_impl (fuel : Nat) (root : Nat) : Nat → Heap → Except DCErr (List Nat × Heap)
  | 0, h => .ok ([], h)
  | n + 1, h =>
    match deepcopy_recursive userMemoImpl fuel root (DCState.init h) with
    | .error e => .error e
    | .ok (c, s) =>
      match replicate_impl fuel root n s.heap with
      | .error e => .error e
      | .ok (cs, h') => .ok (c :: cs, h')

/-- Model of `is_atomic_immutable` (src/deepcopy.rs): the literal immutables, the
builtin immutables, and type objects — the classifier's AtomicImmutable
bucket. -/
def is_atomic_immutable : PyObj → Bool
  | .atom => true
  | .noneObj => true
  | .typeObj => true
  | _ => false

/-- The entry of `deepcopy_impl` (src/deepcopy.rs): an AtomicImmutable node
short-circuits to the object itself before any hashing or memo
interaction; every other node is handed to `dispatch_copy`, here an
abstract parameter since the claims below only concern the fast path. -/
def deepcopyS_entry (dispatch : Nat → DCState σ → DCRes σ)
    (x : Nat) (s : DCState σ) : DCRes σ :=
  match heapGet s.heap x with
  | none => .error .badRef
  | some o => if is_atomic_immutable o then .ok (x, s) else dispatch x s

/-! ### Arithmetic and list helpers -/

theorem and_mask_eq_mod (x k : Nat) : x &&& (2 ^ k - 1) = x % 2 ^ k := by
  apply Nat.eq_of_testBit_eq
  intro i
  rw [Nat.testBit_and, Nat.testBit_two_pow_sub_one, Nat.testBit_mod_two_pow]
  by_cases h : i < k
  · simp [h]
  · simp [h]

/-- On a power-of-two sized table, masking with `size - 1` is reduction
modulo `size`. -/
theorem mask_step {n k : Nat} (h : n = 2 ^ k) (m : Nat) : m &&& (n - 1) = m % n := by
  subst h
  exact and_mask_eq_mod m k

theorem mask_lt {n k : Nat} (h : n = 2 ^ k) (m : Nat) : m &&& (n - 1) < n := by
  rw [mask_step h]
  refine Nat.mod_lt _ ?_
  rw [h]
  positivity

theorem getD_set_ne (l : List Slot) (i j : Nat) (x : Slot) (hne : i ≠ j) :
    (l.set i x).getD j .free = l.getD j .free := by
  simp [List.getD_eq_getElem?_getD, List.getElem?_set, hne]

theorem getD_set_self (l : List Slot) (i : Nat) (x : Slot) (h : i < l.length) :
    (l.set i x).getD i .free = x := by
  simp [List.getD_eq_getElem?_getD, List.getElem?_set, h]

theorem getD_replicate (n m : Nat) : (List.replicate n Slot.free).getD m .free = .free := by
  rcases Nat.lt_or_ge m n with h | h
  · rw [List.getD_eq_getElem _ _ (by simpa using h)]
    simp
  · rw [List.getD_eq_default]
    simpa using h

/-- Effect of writing one slot on a `countP`. -/
theorem countP_set (p : Slot → Bool) (l : List Slot) (i : Nat) (x : Slot)
    (hi : i < l.length) :
    (l.set i x).countP p + (if p (l.getD i .free) then 1 else 0) =
      l.countP p + (if p x then 1 else 0) := by
  induction l generalizing i with
  | nil => simp at hi
  | cons a l ih =>
    cases i with
    | zero => simp [List.countP_cons]; omega
    | succ n =>
      have hn : n < l.length := by simpa using hi
      have := ih n hn
      simp only [List.set_cons_succ, List.countP_cons, List.getD_cons_succ]
      omega

theorem tomb_not_mem_set {l : List Slot} {i : Nat} {x : Slot}
    (hl : Slot.tomb ∉ l) (hx : x ≠ Slot.tomb) : Slot.tomb ∉ l.set i x := by
  intro hmem
  rcases List.mem_or_eq_of_mem_set hmem with h | h
  · exact hl h
  · exact hx h.symm

/-- With no tombstones, the `filled` count coincides with the `used` count. -/
theorem countFilled_eq_countEntries {l : List Slot} (h : Slot.tomb ∉ l) :
    countFilled l = countEntries l := by
  induction l with
  | nil => rfl
  | cons a l ih =>
    have ha : a ≠ Slot.tomb := fun he => h (he ▸ List.mem_cons_self a l)
    have hl : Slot.tomb ∉ l := fun hm => h (List.mem_cons_of_mem a hm)
    have ihl := ih hl
    simp only [countFilled, countEntries, List.countP_cons] at ihl ⊢
    cases a with
    | free => simp [isEntry, nonFree]; omega
    | tomb => exact absurd rfl ha
    | entry k v => simp [isEntry, nonFree]; omega

/-- A slot array whose `filled` count is below its length has a null slot. -/
theorem exists_free_slot {l : List Slot} (h : countFilled l < l.length) :
    ∃ i, i < l.length ∧ l.getD i .free = .free := by
  by_contra hc
  push_neg at hc
  have : l.countP nonFree = l.length := by
    rw [List.countP_eq_length]
    intro a ha
    obtain ⟨i, hi, rfl⟩ := List.mem_iff_getElem.mp ha
    have := hc i hi
    rw [List.getD_eq_getElem _ _ hi] at this
    cases h' : l[i] with
    | free => exact absurd h' this
    | tomb => rfl
    | entry k v => rfl
  have := h
  rw [countFilled] at this
  omega

/-- From a null slot anywhere in the array, produce one in the probe window
starting at `idx`. -/
theorem free_in_window {l : List Slot} {idx : Nat} (hidx : idx < l.length)
    {i : Nat} (hi : i < l.length) (hfree : l.getD i .free = .free) :
    ∃ j, j < l.length ∧ l.getD ((idx + j) % l.length) .free = .free := by
  rcases le_or_lt idx i with hle | hlt
  · refine ⟨i - idx, by omega, ?_⟩
    have : idx + (i - idx) = i := by omega
    rw [this, Nat.mod_eq_of_lt hi]
    exact hfree
  · refine ⟨l.length - idx + i, by omega, ?_⟩
    have : idx + (l.length - idx + i) = l.length + i := by omega
    rw [this, Nat.add_mod_left, Nat.mod_eq_of_lt hi]
    exact hfree


/-! ### Probe-loop step equations -/

theorem probeLookup_zero (slots : List Slot) (key idx : Nat) :
    probeLookup slots key idx 0 = none := rfl

theorem probeLookup_succ (slots : List Slot) (key idx fuel : Nat) :
    probeLookup slots key idx (fuel + 1) =
      match slots.getD idx .free with
      | .free => some none
      | .tomb => probeLookup slots key ((idx + 1) &&& (slots.length - 1)) fuel
      | .entry k v =>
        if k = key then some (some v)
        else probeLookup slots key ((idx + 1) &&& (slots.length - 1)) fuel := rfl

theorem probeInsert_succ (slots : List Slot) (key value idx fuel : Nat)
    (ft : Option Nat) :
    probeInsert slots key value idx ft (fuel + 1) =
      match slots.getD idx .free with
      | .free => some (slots.set (ft.getD idx) (.entry key value), true)
      | .tomb =>
        probeInsert slots key value ((idx + 1) &&& (slots.length - 1))
          (some (ft.getD idx)) fuel
      | .entry k _ =>
        if k = key then some (slots.set idx (.entry key value), false)
        else probeInsert slots key value ((idx + 1) &&& (slots.length - 1)) ft fuel := rfl

theorem probeFresh_succ (slots : List Slot) (key value idx fuel : Nat) :
    probeFresh slots key value idx (fuel + 1) =
      match slots.getD idx .free with
      | .free => slots.set idx (.entry key value)
      | _ => probeFresh slots key value ((idx + 1) &&& (slots.length - 1)) fuel := rfl

/-! ### Probe-loop lemmas

Each probe loop in src/memo.rs advances its index by one modulo the
power-of-two table size.  If a null slot lies within the next `fuel` probe
positions, the loop reaches a null slot or a key match within `fuel`
steps. -/

theorem probeLookup_isSome {k : Nat} (slots : List Slot) (key : Nat)
    (hk : slots.length = 2 ^ k) :
    ∀ fuel idx, idx < slots.length →
      (∃ j, j < fuel ∧ slots.getD ((idx + j) % slots.length) .free = .free) →
      probeLookup slots key idx fuel ≠ none := by
  intro fuel
  induction fuel with
  | zero =>
    intro idx _ hw
    obtain ⟨j, hj, _⟩ := hw
    omega
  | succ fuel ih =>
    intro idx hidx hw
    have hpos : 0 < slots.length := by rw [hk]; positivity
    cases hslot : slots.getD idx .free with
    | free =>
      rw [probeLookup_succ, hslot]
      simp
    | tomb =>
      obtain ⟨j, hj, hfree⟩ := hw
      have hj0 : j ≠ 0 := by
        rintro rfl
        rw [Nat.add_zero, Nat.mod_eq_of_lt hidx, hslot] at hfree
        exact Slot.noConfusion hfree
      rw [probeLookup_succ, hslot]
      show probeLookup slots key ((idx + 1) &&& (slots.length - 1)) fuel ≠ none
      rw [mask_step hk]
      refine ih ((idx + 1) % slots.length) (Nat.mod_lt _ hpos) ⟨j - 1, by omega, ?_⟩
      rw [Nat.mod_add_mod]
      have hidx1 : idx + 1 + (j - 1) = idx + j := by omega
      rw [hidx1]
      exact hfree
    | entry k' v =>
      by_cases hkey : k' = key
      · rw [probeLookup_succ, hslot]
        show (if k' = key then some (some v)
          else probeLookup slots key ((idx + 1) &&& (slots.length - 1)) fuel) ≠ none
        rw [if_pos hkey]
        simp
      · obtain ⟨j, hj, hfree⟩ := hw
        have hj0 : j ≠ 0 := by
          rintro rfl
          rw [Nat.add_zero, Nat.mod_eq_of_lt hidx, hslot] at hfree
          exact Slot.noConfusion hfree
        rw [probeLookup_succ, hslot]
        show (if k' = key then some (some v)
          else probeLookup slots key ((idx + 1) &&& (slots.length - 1)) fuel) ≠ none
        rw [if_neg hkey, mask_step hk]
        refine ih ((idx + 1) % slots.length) (Nat.mod_lt _ hpos) ⟨j - 1, by omega, ?_⟩
        rw [Nat.mod_add_mod]
        have hidx1 : idx + 1 + (j - 1) = idx + j := by omega
        rw [hidx1]
        exact hfree

theorem probeInsert_isSome {k : Nat} (slots : List Slot) (key value : Nat)
    (hk : slots.length = 2 ^ k) :
    ∀ fuel idx ft, idx < slots.length →
      (∃ j, j < fuel ∧ slots.getD ((idx + j) % slots.length) .free = .free) →
      probeInsert slots key value idx ft fuel ≠ none := by
  intro fuel
  induction fuel with
  | zero =>
    intro idx ft _ hw
    obtain ⟨j, hj, _⟩ := hw
    omega
  | succ fuel ih =>
    intro idx ft hidx hw
    have hpos : 0 < slots.length := by rw [hk]; positivity
    cases hslot : slots.getD idx .free with
    | free =>
      rw [probeInsert_succ, hslot]
      simp
    | tomb =>
      obtain ⟨j, hj, hfree⟩ := hw
      have hj0 : j ≠ 0 := by
        rintro rfl
        rw [Nat.add_zero, Nat.mod_eq_of_lt hidx, hslot] at hfree
        exact Slot.noConfusion hfree
      rw [probeInsert_succ, hslot]
      show probeInsert slots key value ((idx + 1) &&& (slots.length - 1))
        (some (ft.getD idx)) fuel ≠ none
      rw [mask_step hk]
      refine ih ((idx + 1) % slots.length) _ (Nat.mod_lt _ hpos) ⟨j - 1, by omega, ?_⟩
      rw [Nat.mod_add_mod]
      have hidx1 : idx + 1 + (j - 1) = idx + j := by omega
      rw [hidx1]
      exact hfree
    | entry k' v =>
      by_cases hkey : k' = key
      · rw [probeInsert_succ, hslot]
        show (if k' = key then some (slots.set idx (.entry key value), false)
          else probeInsert slots key value ((idx + 1) &&& (slots.length - 1)) ft fuel) ≠ none
        rw [if_pos hkey]
        simp
      · obtain ⟨j, hj, hfree⟩ := hw
        have hj0 : j ≠ 0 := by
          rintro rfl
          rw [Nat.add_zero, Nat.mod_eq_of_lt hidx, hslot] at hfree
          exact Slot.noConfusion hfree
        rw [probeInsert_succ, hslot]
        show (if k' = key then some (slots.set idx (.entry key value), false)
          else probeInsert slots key value ((idx + 1) &&& (slots.length - 1)) ft fuel) ≠ none
        rw [if_neg hkey, mask_step hk]
        refine ih ((idx + 1) % slots.length) _ (Nat.mod_lt _ hpos) ⟨j - 1, by omega, ?_⟩
        rw [Nat.mod_add_mod]
        have hidx1 : idx + 1 + (j - 1) = idx + j := by omega
        rw [hidx1]
        exact hfree

/-- C3 core: if the lookup probe finds `key ↦ v₀`, then the insert probe for
`key` — whatever tombstones it passes and remembers — rewrites exactly that
entry's slot in place, reports "no new entry", and afterwards the same probe
sequence finds the new value. -/
theorem probeInsert_found {k : Nat} {slots : List Slot} {key value : Nat}
    (hk : slots.length = 2 ^ k) :
    ∀ fuel idx v₀, idx < slots.length →
      probeLookup slots key idx fuel = some (some v₀) →
      ∀ ft, ∃ i, i < slots.length ∧ slots.getD i .free = .entry key v₀ ∧
        probeInsert slots key value idx ft fuel =
          some (slots.set i (.entry key value), false) ∧
        probeLookup (slots.set i (.entry key value)) key idx fuel = some (some value) := by
  intro fuel
  induction fuel with
  | zero =>
    intro idx v₀ _ hlook
    rw [probeLookup_zero] at hlook
    exact absurd hlook (by simp)
  | succ fuel ih =>
    intro idx v₀ hidx hlook ft
    have hpos : 0 < slots.length := by rw [hk]; positivity
    cases hslot : slots.getD idx .free with
    | free =>
      rw [probeLookup_succ, hslot] at hlook
      exact absurd hlook (by simp)
    | tomb =>
      rw [probeLookup_succ, hslot] at hlook
      have hlook2 : probeLookup slots key ((idx + 1) &&& (slots.length - 1)) fuel =
          some (some v₀) := hlook
      rw [mask_step hk] at hlook2
      obtain ⟨i, hi, hent, hins, hlook'⟩ :=
        ih ((idx + 1) % slots.length) v₀ (Nat.mod_lt _ hpos) hlook2
          (some (ft.getD idx))
      have hne : i ≠ idx := by
        intro h
        rw [h, hslot] at hent
        exact Slot.noConfusion hent
      refine ⟨i, hi, hent, ?_, ?_⟩
      · rw [probeInsert_succ, hslot]
        show probeInsert slots key value ((idx + 1) &&& (slots.length - 1))
          (some (ft.getD idx)) fuel = some (slots.set i (.entry key value), false)
        rw [mask_step hk]
        exact hins
      · rw [probeLookup_succ, getD_set_ne _ _ _ _ hne, hslot]
        show probeLookup (slots.set i (.entry key value)) key
          ((idx + 1) &&& ((slots.set i (.entry key value)).length - 1)) fuel = some (some value)
        rw [List.length_set, mask_step hk]
        exact hlook'
    | entry k' v =>
      by_cases hkey : k' = key
      · subst hkey
        rw [probeLookup_succ, hslot] at hlook
        have hlook2 : (if k' = k' then some (some v)
            else probeLookup slots k' ((idx + 1) &&& (slots.length - 1)) fuel) =
              some (some v₀) := hlook
        rw [if_pos rfl] at hlook2
        have hv : v = v₀ := by
          injection hlook2 with h1
          injection h1
        subst hv
        refine ⟨idx, hidx, hslot, ?_, ?_⟩
        · rw [probeInsert_succ, hslot]
          show (if k' = k' then some (slots.set idx (.entry k' value), false)
            else probeInsert slots k' value ((idx + 1) &&& (slots.length - 1)) ft fuel) =
              some (slots.set idx (.entry k' value), false)
          rw [if_pos rfl]
        · rw [probeLookup_succ, getD_set_self _ _ _ hidx]
          show (if k' = k' then some (some value)
            else probeLookup (slots.set idx (.entry k' value)) k'
              ((idx + 1) &&& ((slots.set idx (.entry k' value)).length - 1)) fuel) =
                some (some value)
          rw [if_pos rfl]
      · rw [probeLookup_succ, hslot] at hlook
        have hlook2 : (if k' = key then some (some v)
            else probeLookup slots key ((idx + 1) &&& (slots.length - 1)) fuel) =
              some (some v₀) := hlook
        rw [if_neg hkey, mask_step hk] at hlook2
        obtain ⟨i, hi, hent, hins, hlook'⟩ :=
          ih ((idx + 1) % slots.length) v₀ (Nat.mod_lt _ hpos) hlook2 ft
        have hne : i ≠ idx := by
          intro h
          rw [h, hslot] at hent
          injection hent with h1 h2
          exact hkey h1
        refine ⟨i, hi, hent, ?_, ?_⟩
        · rw [probeInsert_succ, hslot]
          show (if k' = key then some (slots.set idx (.entry key value), false)
            else probeInsert slots key value ((idx + 1) &&& (slots.length - 1)) ft fuel) =
              some (slots.set i (.entry key value), false)
          rw [if_neg hkey, mask_step hk]
          exact hins
        · rw [probeLookup_succ, getD_set_ne _ _ _ _ hne, hslot]
          show (if k' = key then some (some v)
            else probeLookup (slots.set i (.entry key value)) key
              ((idx + 1) &&& ((slots.set i (.entry key value)).length - 1)) fuel) =
                some (some value)
          rw [if_neg hkey, List.length_set, mask_step hk]
          exact hlook'

/-- On a tombstone-free array, the insert probe lands on a null slot (new
entry, counters grow) or on the live entry for the key (in-place update). -/
theorem probeInsert_noTombs {k : Nat} {slots : List Slot} {key value : Nat}
    (hk : slots.length = 2 ^ k) (hnt : Slot.tomb ∉ slots) :
    ∀ fuel idx, idx < slots.length →
      (∃ j, j < fuel ∧ slots.getD ((idx + j) % slots.length) .free = .free) →
      (∃ i, i < slots.length ∧ slots.getD i .free = .free ∧
        probeInsert slots key value idx none fuel =
          some (slots.set i (.entry key value), true)) ∨
      (∃ i w, i < slots.length ∧ slots.getD i .free = .entry key w ∧
        probeInsert slots key value idx none fuel =
          some (slots.set i (.entry key value), false)) := by
  intro fuel
  induction fuel with
  | zero =>
    intro idx _ hw
    obtain ⟨j, hj, _⟩ := hw
    omega
  | succ fuel ih =>
    intro idx hidx hw
    have hpos : 0 < slots.length := by rw [hk]; positivity
    cases hslot : slots.getD idx .free with
    | free =>
      refine Or.inl ⟨idx, hidx, hslot, ?_⟩
      rw [probeInsert_succ, hslot]
      exact rfl
    | tomb =>
      exfalso
      apply hnt
      rw [List.getD_eq_getElem _ _ hidx] at hslot
      rw [← hslot]
      exact List.getElem_mem hidx
    | entry k' v =>
      by_cases hkey : k' = key
      · subst hkey
        refine Or.inr ⟨idx, v, hidx, hslot, ?_⟩
        rw [probeInsert_succ, hslot]
        show (if k' = k' then some (slots.set idx (.entry k' value), false)
          else probeInsert slots k' value ((idx + 1) &&& (slots.length - 1)) none fuel) =
            some (slots.set idx (.entry k' value), false)
        rw [if_pos rfl]
      · obtain ⟨j, hj, hfree⟩ := hw
        have hj0 : j ≠ 0 := by
          rintro rfl
          rw [Nat.add_zero, Nat.mod_eq_of_lt hidx, hslot] at hfree
          exact Slot.noConfusion hfree
        have hrec :=
          ih ((idx + 1) % slots.length) (Nat.mod_lt _ hpos)
            ⟨j - 1, by omega, by
              rw [Nat.mod_add_mod]
              have hidx1 : idx + 1 + (j - 1) = idx + j := by omega
              rw [hidx1]
              exact hfree⟩
        have hstep :
            probeInsert slots key value idx none (fuel + 1) =
              probeInsert slots key value ((idx + 1) % slots.length) none fuel := by
          rw [probeInsert_succ, hslot]
          show (if k' = key then some (slots.set idx (.entry key value), false)
            else probeInsert slots key value ((idx + 1) &&& (slots.length - 1)) none fuel) =
              probeInsert slots key value ((idx + 1) % slots.length) none fuel
          rw [if_neg hkey, mask_step hk]
        rw [hstep]
        exact hrec

/-- During resize migration the fresh array has no tombstones; the probe
lands on a null slot and writes the entry there. -/
theorem probeFresh_spec {k : Nat} {slots : List Slot} {key value : Nat}
    (hk : slots.length = 2 ^ k) :
    ∀ fuel idx, idx < slots.length →
      (∃ j, j < fuel ∧ slots.getD ((idx + j) % slots.length) .free = .free) →
      ∃ i, i < slots.length ∧ slots.getD i .free = .free ∧
        probeFresh slots key value idx fuel = slots.set i (.entry key value) := by
  intro fuel
  induction fuel with
  | zero =>
    intro idx _ hw
    obtain ⟨j, hj, _⟩ := hw
    omega
  | succ fuel ih =>
    intro idx hidx hw
    have hpos : 0 < slots.length := by rw [hk]; positivity
    cases hslot : slots.getD idx .free with
    | free =>
      refine ⟨idx, hidx, hslot, ?_⟩
      rw [probeFresh_succ, hslot]
    | tomb =>
      obtain ⟨j, hj, hfree⟩ := hw
      have hj0 : j ≠ 0 := by
        rintro rfl
        rw [Nat.add_zero, Nat.mod_eq_of_lt hidx, hslot] at hfree
        exact Slot.noConfusion hfree
      have hstep :
          probeFresh slots key value idx (fuel + 1) =
            probeFresh slots key value ((idx + 1) % slots.length) fuel := by
        rw [probeFresh_succ, hslot]
        show probeFresh slots key value ((idx + 1) &&& (slots.length - 1)) fuel =
          probeFresh slots key value ((idx + 1) % slots.length) fuel
        rw [mask_step hk]
      rw [hstep]
      refine ih ((idx + 1) % slots.length) (Nat.mod_lt _ hpos) ⟨j - 1, by omega, ?_⟩
      rw [Nat.mod_add_mod]
      have hidx1 : idx + 1 + (j - 1) = idx + j := by omega
      rw [hidx1]
      exact hfree
    | entry k' v =>
      obtain ⟨j, hj, hfree⟩ := hw
      have hj0 : j ≠ 0 := by
        rintro rfl
        rw [Nat.add_zero, Nat.mod_eq_of_lt hidx, hslot] at hfree
        exact Slot.noConfusion hfree
      have hstep :
          probeFresh slots key value idx (fuel + 1) =
            probeFresh slots key value ((idx + 1) % slots.length) fuel := by
        rw [probeFresh_succ, hslot]
        show probeFresh slots key value ((idx + 1) &&& (slots.length - 1)) fuel =
          probeFresh slots key value ((idx + 1) % slots.length) fuel
        rw [mask_step hk]
      rw [hstep]
      refine ih ((idx + 1) % slots.length) (Nat.mod_lt _ hpos) ⟨j - 1, by omega, ?_⟩
      rw [Nat.mod_add_mod]
      have hidx1 : idx + 1 + (j - 1) = idx + j := by omega
      rw [hidx1]
      exact hfree

/-! ### Migration, resize and insertion -/

theorem countEntries_cons (s : Slot) (l : List Slot) :
    countEntries (s :: l) = countEntries l + (if isEntry s then 1 else 0) := by
  simp [countEntries, List.countP_cons]

theorem countFilled_cons (s : Slot) (l : List Slot) :
    countFilled (s :: l) = countFilled l + (if nonFree s then 1 else 0) := by
  simp [countFilled, List.countP_cons]

theorem countEntries_replicate_free (n : Nat) :
    countEntries (List.replicate n Slot.free) = 0 := by
  induction n with
  | zero => rfl
  | succ n ih => simp [List.replicate_succ, countEntries_cons, isEntry] at *; omega

theorem countFilled_replicate_free (n : Nat) :
    countFilled (List.replicate n Slot.free) = 0 := by
  induction n with
  | zero => rfl
  | succ n ih => simp [List.replicate_succ, countFilled_cons, nonFree] at *; omega

theorem tomb_not_mem_replicate (n : Nat) : Slot.tomb ∉ List.replicate n Slot.free := by
  intro h
  have := (List.mem_replicate.mp h).2
  exact Slot.noConfusion this

theorem migrate_cons_free (old acc : List Slot) :
    migrate (Slot.free :: old) acc = migrate old acc := rfl

theorem migrate_cons_tomb (old acc : List Slot) :
    migrate (Slot.tomb :: old) acc = migrate old acc := rfl

theorem migrate_cons_entry (k v : Nat) (old acc : List Slot) :
    migrate (Slot.entry k v :: old) acc =
      migrate old (probeFresh acc k v (hash_pointer k &&& (acc.length - 1)) acc.length) := rfl

/-- The resize migration rehashes exactly the live entries: the new array
keeps its length, gains no tombstones, and its entry count is the old entry
count, provided the live entries fit in the new array. -/
theorem migrate_spec {k : Nat} :
    ∀ (old acc : List Slot), acc.length = 2 ^ k →
      Slot.tomb ∉ acc →
      countEntries acc + countEntries old ≤ acc.length →
      (migrate old acc).length = acc.length ∧
      Slot.tomb ∉ migrate old acc ∧
      countEntries (migrate old acc) = countEntries acc + countEntries old := by
  intro old
  induction old with
  | nil =>
    intro acc hk hnt hle
    refine ⟨rfl, hnt, ?_⟩
    simp [migrate, countEntries]
  | cons s old ih =>
    intro acc hk hnt hle
    cases s with
    | free =>
      rw [migrate_cons_free]
      have hce : countEntries (Slot.free :: old) = countEntries old := by
        rw [countEntries_cons]; simp [isEntry]
      rw [hce] at hle
      have := ih acc hk hnt hle
      simpa [hce] using this
    | tomb =>
      rw [migrate_cons_tomb]
      have hce : countEntries (Slot.tomb :: old) = countEntries old := by
        rw [countEntries_cons]; simp [isEntry]
      rw [hce] at hle
      have := ih acc hk hnt hle
      simpa [hce] using this
    | entry k' v =>
      rw [migrate_cons_entry]
      have hce : countEntries (Slot.entry k' v :: old) = countEntries old + 1 := by
        rw [countEntries_cons]; simp [isEntry]
      rw [hce] at hle
      have hflt : countFilled acc < acc.length := by
        rw [countFilled_eq_countEntries hnt]
        omega
      obtain ⟨e, he, hefree⟩ := exists_free_slot hflt
      have hidx : hash_pointer k' &&& (acc.length - 1) < acc.length := mask_lt hk _
      obtain ⟨j, hj, hwin⟩ := free_in_window hidx he hefree
      obtain ⟨i, hi, hifree, heq⟩ :=
        @probeFresh_spec k acc k' v hk acc.length
          (hash_pointer k' &&& (acc.length - 1)) hidx ⟨j, hj, hwin⟩
      rw [heq]
      have hlen : (acc.set i (Slot.entry k' v)).length = acc.length := by simp
      have hnt' : Slot.tomb ∉ acc.set i (Slot.entry k' v) :=
        tomb_not_mem_set hnt (by intro h; exact Slot.noConfusion h)
      have hcnt : countEntries (acc.set i (Slot.entry k' v)) = countEntries acc + 1 := by
        have hset := countP_set isEntry acc i (Slot.entry k' v) hi
        rw [hifree] at hset
        simp [isEntry] at hset
        simp only [countEntries]
        omega
      have := ih (acc.set i (Slot.entry k' v)) (by rw [hlen]; exact hk) hnt'
        (by rw [hcnt, hlen]; omega)
      rw [hlen, hcnt] at this
      obtain ⟨h1, h2, h3⟩ := this
      exact ⟨h1, h2, by omega⟩

/-- The operation `MemoTable::resize` preserves the structural invariant and rehashes
exactly the live entries, whenever they fit the target size. -/
theorem resize_spec (t : MemoTable) {k' : Nat} (newSize : Nat)
    (hpow : newSize = 2 ^ k') (hInv : t.Inv) (hle : t.used ≤ newSize) :
    (t.resize newSize).Inv ∧ (t.resize newSize).slots.length = newSize ∧
    (t.resize newSize).used = t.used ∧ (t.resize newSize).filled = t.used ∧
    countEntries (t.resize newSize).slots = countEntries t.slots := by
  obtain ⟨hp, hnt, hu, hf⟩ := hInv
  have hrep : (List.replicate newSize Slot.free).length = 2 ^ k' := by simp [hpow]
  have hmig := migrate_spec t.slots (List.replicate newSize Slot.free) hrep
    (tomb_not_mem_replicate newSize)
    (by rw [countEntries_replicate_free, List.length_replicate, ← hu]; omega)
  obtain ⟨hlen, hnt', hcnt⟩ := hmig
  rw [countEntries_replicate_free] at hcnt
  rw [List.length_replicate] at hlen
  have hres : (t.resize newSize).slots = migrate t.slots (List.replicate newSize Slot.free) :=
    rfl
  have hru : (t.resize newSize).used = t.used := rfl
  have hrf : (t.resize newSize).filled = t.used := rfl
  refine ⟨⟨Or.inr ⟨k', ?_⟩, ?_, ?_, ?_⟩, ?_, rfl, rfl, ?_⟩
  · rw [hres, hlen, hpow]
  · rw [hres]; exact hnt'
  · rw [hru, hres, hcnt, ← hu]
    omega
  · rw [hrf, hres, countFilled_eq_countEntries hnt', hcnt, ← hu]
    omega
  · rw [hres, hlen]
  · rw [hres, hcnt]
    omega

/-- One insertion step on a well-formed table with a null slot available:
the probe succeeds and either claims a null slot (new entry) or updates the
key's entry in place. -/
theorem insert_step_inv {k : Nat} (t2 : MemoTable) (key value hash : Nat)
    (hk : t2.slots.length = 2 ^ k) (hInv : t2.Inv) (hlt : t2.filled < t2.slots.length) :
    ∃ slots' isNew,
      probeInsert t2.slots key value (hash &&& (t2.slots.length - 1)) none
          t2.slots.length = some (slots', isNew) ∧
      slots'.length = t2.slots.length ∧ Slot.tomb ∉ slots' ∧
      countEntries slots' = t2.used + (if isNew then 1 else 0) ∧
      countFilled slots' = t2.filled + (if isNew then 1 else 0) := by
  obtain ⟨hp, hnt, hu, hf⟩ := hInv
  have hflt : countFilled t2.slots < t2.slots.length := by rw [← hf]; exact hlt
  obtain ⟨e, he, hefree⟩ := exists_free_slot hflt
  have hidx : hash &&& (t2.slots.length - 1) < t2.slots.length := mask_lt hk _
  obtain ⟨j, hj, hwin⟩ := free_in_window hidx he hefree
  rcases probeInsert_noTombs hk hnt t2.slots.length (hash &&& (t2.slots.length - 1))
      hidx ⟨j, hj, hwin⟩ with
    ⟨i, hi, hifree, heq⟩ | ⟨i, w, hi, hient, heq⟩
  · refine ⟨_, true, heq, by simp, ?_, ?_, ?_⟩
    · exact tomb_not_mem_set hnt (by intro h; exact Slot.noConfusion h)
    · have hset := countP_set isEntry t2.slots i (.entry key value) hi
      rw [hifree] at hset
      simp [isEntry] at hset
      show countEntries (t2.slots.set i (Slot.entry key value)) = t2.used + 1
      simp only [countEntries] at hu ⊢
      omega
    · have hset := countP_set nonFree t2.slots i (.entry key value) hi
      rw [hifree] at hset
      simp [nonFree] at hset
      show countFilled (t2.slots.set i (Slot.entry key value)) = t2.filled + 1
      simp only [countFilled] at hf ⊢
      omega
  · refine ⟨_, false, heq, by simp, ?_, ?_, ?_⟩
    · exact tomb_not_mem_set hnt (by intro h; exact Slot.noConfusion h)
    · have hset := countP_set isEntry t2.slots i (.entry key value) hi
      rw [hient] at hset
      simp [isEntry] at hset
      show countEntries (t2.slots.set i (Slot.entry key value)) = t2.used + 0
      simp only [countEntries] at hu ⊢
      omega
    · have hset := countP_set nonFree t2.slots i (.entry key value) hi
      rw [hient] at hset
      simp [nonFree] at hset
      show countFilled (t2.slots.set i (Slot.entry key value)) = t2.filled + 0
      simp only [countFilled] at hf ⊢
      omega

theorem insertFinish_eq_new (t2 : MemoTable) (key value hash : Nat)
    {slots' : List Slot}
    (heq : probeInsert t2.slots key value (hash &&& (t2.slots.length - 1)) none
      t2.slots.length = some (slots', true)) :
    insertFinish t2 key value hash =
      { slots := slots', used := t2.used + 1, filled := t2.filled + 1 } := by
  simp only [insertFinish]
  rw [heq]

theorem insertFinish_eq_update (t2 : MemoTable) (key value hash : Nat)
    {slots' : List Slot}
    (heq : probeInsert t2.slots key value (hash &&& (t2.slots.length - 1)) none
      t2.slots.length = some (slots', false)) :
    insertFinish t2 key value hash =
      { slots := slots', used := t2.used, filled := t2.filled } := by
  simp only [insertFinish]
  rw [heq]

/-- The probe-and-write step preserves the invariant and the slot count. -/
theorem insertFinish_inv {k : Nat} (t2 : MemoTable) (key value hash : Nat)
    (hk : t2.slots.length = 2 ^ k) (hInv : t2.Inv) (hlt : t2.filled < t2.slots.length) :
    (insertFinish t2 key value hash).Inv ∧
    (insertFinish t2 key value hash).slots.length = t2.slots.length := by
  obtain ⟨slots', isNew, heq, hlen', hnt', hce', hcf'⟩ :=
    insert_step_inv t2 key value hash hk hInv hlt
  cases isNew with
  | true =>
    rw [insertFinish_eq_new t2 key value hash heq]
    refine ⟨⟨Or.inr ⟨k, by rw [hlen']; exact hk⟩, hnt', ?_, ?_⟩, hlen'⟩
    · simpa using hce'.symm
    · simpa [countFilled] using hcf'.symm
  | false =>
    rw [insertFinish_eq_update t2 key value hash heq]
    refine ⟨⟨Or.inr ⟨k, by rw [hlen']; exact hk⟩, hnt', ?_, ?_⟩, hlen'⟩
    · simpa using hce'.symm
    · simpa [countFilled] using hcf'.symm

/-- The operation `insert_with_hash` preserves the invariant, and its resulting slot count
follows the sizing policy: a null array is allocated at `INITIAL_SIZE`, a
table at or above the 70% load factor doubles, anything else keeps its
size. -/
theorem insert_with_hash_inv (t : MemoTable) (key value hash : Nat) (hInv : t.Inv) :
    (t.insert_with_hash key value hash).Inv ∧
    (t.insert_with_hash key value hash).slots.length =
      (if t.slots.length = 0 then INITIAL_SIZE
       else if t.filled * LOAD_FACTOR_DEN ≥ t.slots.length * LOAD_FACTOR_NUM
       then t.slots.length * 2 else t.slots.length) := by
  by_cases h0 : t.slots.length = 0
  · have h8 : INITIAL_SIZE = 2 ^ 3 := by norm_num [INITIAL_SIZE]
    have hu0 : t.used = 0 := by
      obtain ⟨_, _, hu, _⟩ := hInv
      have hsl : t.slots = [] := List.length_eq_zero.mp h0
      rw [hu, hsl]
      rfl
    obtain ⟨hInv1, hlen1, hused1, hfil1, _⟩ :=
      resize_spec t INITIAL_SIZE h8 hInv (by omega)
    have hne : ¬ ((t.resize INITIAL_SIZE).filled * LOAD_FACTOR_DEN ≥
        (t.resize INITIAL_SIZE).slots.length * LOAD_FACTOR_NUM) := by
      rw [hfil1, hlen1, hu0]
      norm_num [INITIAL_SIZE, LOAD_FACTOR_NUM, LOAD_FACTOR_DEN]
    have hstep : t.insert_with_hash key value hash =
        insertFinish (t.resize INITIAL_SIZE) key value hash := by
      simp only [MemoTable.insert_with_hash]
      rw [if_pos h0, if_neg hne]
    have hlt1 : (t.resize INITIAL_SIZE).filled < (t.resize INITIAL_SIZE).slots.length := by
      rw [hfil1, hlen1, hu0]
      norm_num [INITIAL_SIZE]
    obtain ⟨hInvR, hlenR⟩ :=
      insertFinish_inv (t.resize INITIAL_SIZE) key value hash
        (by rw [hlen1]; exact h8) hInv1 hlt1
    rw [hstep, if_pos h0]
    exact ⟨hInvR, by rw [hlenR, hlen1]⟩
  · obtain ⟨hp, hnt, hu, hf⟩ := hInv
    have hk : ∃ k, t.slots.length = 2 ^ k := by
      rcases hp with hsl | hsl
      · exact absurd (by rw [hsl]; rfl) h0
      · exact hsl
    obtain ⟨k, hk⟩ := hk
    have hpos : 0 < t.slots.length := Nat.pos_of_ne_zero h0
    have hule : t.used ≤ t.slots.length := by
      rw [hu]
      exact List.countP_le_length _
    by_cases htr : t.filled * LOAD_FACTOR_DEN ≥ t.slots.length * LOAD_FACTOR_NUM
    · have h2k : t.slots.length * 2 = 2 ^ (k + 1) := by rw [hk]; ring
      obtain ⟨hInv2, hlen2, hused2, hfil2, _⟩ :=
        resize_spec t (t.slots.length * 2) h2k ⟨hp, hnt, hu, hf⟩ (by omega)
      have hstep : t.insert_with_hash key value hash =
          insertFinish (t.resize (t.slots.length * 2)) key value hash := by
        simp only [MemoTable.insert_with_hash]
        rw [if_neg h0, if_pos htr, if_neg h0]
      have hlt2 : (t.resize (t.slots.length * 2)).filled <
          (t.resize (t.slots.length * 2)).slots.length := by
        rw [hfil2, hlen2]
        omega
      obtain ⟨hInvR, hlenR⟩ :=
        insertFinish_inv (t.resize (t.slots.length * 2)) key value hash
          (by rw [hlen2]; exact h2k) hInv2 hlt2
      rw [hstep, if_neg h0, if_pos htr]
      exact ⟨hInvR, by rw [hlenR, hlen2]⟩
    · have hstep : t.insert_with_hash key value hash =
          insertFinish t key value hash := by
        simp only [MemoTable.insert_with_hash]
        rw [if_neg h0, if_neg htr]
      have hlt : t.filled < t.slots.length := by
        simp only [ge_iff_le, not_le] at htr
        simp only [LOAD_FACTOR_DEN, LOAD_FACTOR_NUM] at htr
        omega
      obtain ⟨hInvR, hlenR⟩ :=
        insertFinish_inv t key value hash hk ⟨hp, hnt, hu, hf⟩ hlt
      rw [hstep, if_neg h0, if_neg htr]
      exact ⟨hInvR, hlenR⟩


/-! ### Heap lemmas -/

theorem find?_key_set_ne (l : List (Nat × PyObj)) (i j : Nat) (o : PyObj) (hne : j ≠ i) :
    ((l.map fun p => if p.1 = i then (i, o) else p).find? fun p => p.1 == j) =
      l.find? fun p => p.1 == j := by
  induction l with
  | nil => rfl
  | cons p rest ih =>
    by_cases hp : p.1 = i
    · simp only [List.map_cons, if_pos hp, List.find?_cons]
      have h1 : (i == j) = false := by simp; omega
      have h2 : (p.1 == j) = false := by simp; omega
      rw [h1, h2]
      exact ih
    · simp only [List.map_cons, if_neg hp, List.find?_cons]
      cases hpj : (p.1 == j) with
      | true => rfl
      | false => exact ih

theorem find?_key_set_self (l : List (Nat × PyObj)) (i : Nat) (o : PyObj)
    (hfound : (l.find? fun p => p.1 == i).isSome) :
    ((l.map fun p => if p.1 = i then (i, o) else p).find? fun p => p.1 == i) =
      some (i, o) := by
  induction l with
  | nil => simp [List.find?] at hfound
  | cons p rest ih =>
    by_cases hp : p.1 = i
    · simp only [List.map_cons, if_pos hp, List.find?_cons]
      simp
    · simp only [List.map_cons, if_neg hp, List.find?_cons]
      have h2 : (p.1 == i) = false := by simp [hp]
      rw [h2]
      rw [List.find?_cons, h2] at hfound
      exact ih hfound

theorem heapGet_mem {h : Heap} {i : Nat} {o : PyObj} (hi : heapGet h i = some o) :
    (i, o) ∈ h.objs := by
  simp only [heapGet] at hi
  cases hfind : h.objs.find? fun p => p.1 == i with
  | none => rw [hfind] at hi; simp at hi
  | some p =>
    rw [hfind] at hi
    simp at hi
    have hkey : p.1 = i := by
      have := List.find?_some hfind
      simpa using this
    have hmem := List.mem_of_find?_eq_some hfind
    have : p = (i, o) := by
      cases p
      simp at hkey hi
      simp [hkey, hi]
    rw [← this]
    exact hmem

theorem heapGet_lt_next {h : Heap} {i : Nat} {o : PyObj} (hf : h.Fresh)
    (hi : heapGet h i = some o) : i < h.next :=
  hf _ (heapGet_mem hi)

theorem heapGet_alloc_self (h : Heap) (o : PyObj) :
    heapGet (h.alloc o).2 h.next = some o := by
  simp [heapGet, Heap.alloc]

theorem heapGet_alloc_ne (h : Heap) (o : PyObj) {i : Nat} (hne : i ≠ h.next) :
    heapGet (h.alloc o).2 i = heapGet h i := by
  simp only [heapGet, Heap.alloc]
  rw [List.find?_cons]
  have : (h.next == i) = false := by simp; omega
  rw [this]

theorem heapGet_setObj_ne (h : Heap) (i j : Nat) (o : PyObj) (hne : j ≠ i) :
    heapGet (h.setObj i o) j = heapGet h j := by
  simp only [heapGet, Heap.setObj]
  rw [find?_key_set_ne _ _ _ _ hne]

theorem heapGet_setObj_self {h : Heap} {i : Nat} {o₀ : PyObj} (o : PyObj)
    (hi : heapGet h i = some o₀) : heapGet (h.setObj i o) i = some o := by
  simp only [heapGet, Heap.setObj]
  have hfound : (h.objs.find? fun p => p.1 == i).isSome := by
    simp only [heapGet] at hi
    cases hfind : h.objs.find? fun p => p.1 == i with
    | none => rw [hfind] at hi; simp at hi
    | some p => simp
  rw [find?_key_set_self _ _ _ hfound]
  rfl

theorem setObj_next (h : Heap) (i : Nat) (o : PyObj) :
    (h.setObj i o).next = h.next := rfl

theorem alloc_next (h : Heap) (o : PyObj) : (h.alloc o).2.next = h.next + 1 := rfl

theorem Fresh_alloc {h : Heap} (hf : h.Fresh) (o : PyObj) : (h.alloc o).2.Fresh := by
  intro p hp
  simp only [Heap.alloc] at hp ⊢
  rcases List.mem_cons.mp hp with hp | hp
  · rw [hp]
    omega
  · have := hf p hp
    omega

theorem Fresh_setObj {h : Heap} (hf : h.Fresh) (i : Nat) (o : PyObj) :
    (h.setObj i o).Fresh := by
  intro p hp
  simp only [Heap.setObj] at hp ⊢
  obtain ⟨q, hq, hqe⟩ := List.mem_map.mp hp
  have := hf q hq
  by_cases hqi : q.1 = i
  · rw [if_pos hqi] at hqe
    rw [← hqe]
    simpa [hqi] using this
  · rw [if_neg hqi] at hqe
    rw [← hqe]
    exact this

/-! ### Claim theorems for the memo table -/

/-- C3: during one copy operation the memo table holds at most one live
entry per identity — inserting a key that is already present updates that
entry's value in place (the resulting slot array is the old one with exactly
that entry's slot overwritten), never creates a second entry for the key
(the per-key entry count is unchanged, as are `used` and `filled`), and the
updated value is what lookup then returns.  This holds even when the linear
probe passes tombstone slots before reaching the existing entry: a tombstone
is overwritable but does not terminate the probe sequence (`probeInsert`
records it in `first_tomb` and probes on).  The value-ownership side
(release old reference, retain new) is a refcount effect outside this
model. -/
theorem insert_existing_key_updates_in_place (t : MemoTable)
    (key value hash v₀ k : Nat)
    (hk : t.slots.length = 2 ^ k)
    (hload : t.filled * LOAD_FACTOR_DEN < t.slots.length * LOAD_FACTOR_NUM)
    (hfound : t.lookup_with_hash key hash = some v₀) :
    ∃ i, i < t.slots.length ∧ t.slots.getD i .free = .entry key v₀ ∧
      t.insert_with_hash key value hash =
        { slots := t.slots.set i (.entry key value),
          used := t.used, filled := t.filled } ∧
      countKey key (t.insert_with_hash key value hash).slots = countKey key t.slots ∧
      (t.insert_with_hash key value hash).lookup_with_hash key hash = some value := by
  have hpos : 0 < t.slots.length := by rw [hk]; positivity
  have h0 : ¬ t.slots.length = 0 := by omega
  simp only [MemoTable.lookup_with_hash] at hfound
  rw [if_neg h0] at hfound
  have hplook : probeLookup t.slots key (hash &&& (t.slots.length - 1))
      t.slots.length = some (some v₀) := by
    cases h : probeLookup t.slots key (hash &&& (t.slots.length - 1)) t.slots.length with
    | none => rw [h] at hfound; simp at hfound
    | some r => rw [h] at hfound; simp at hfound; rw [hfound]
  obtain ⟨i, hi, hent, hins, hlook'⟩ :=
    probeInsert_found hk t.slots.length (hash &&& (t.slots.length - 1)) v₀
      (mask_lt hk _) hplook none
  have htr : ¬ (t.filled * LOAD_FACTOR_DEN ≥ t.slots.length * LOAD_FACTOR_NUM) := by
    omega
  have hstep : t.insert_with_hash key value hash = insertFinish t key value hash := by
    simp only [MemoTable.insert_with_hash]
    rw [if_neg h0, if_neg htr]
  have hfin : t.insert_with_hash key value hash =
      { slots := t.slots.set i (.entry key value), used := t.used, filled := t.filled } := by
    rw [hstep, insertFinish_eq_update t key value hash hins]
  refine ⟨i, hi, hent, hfin, ?_, ?_⟩
  · rw [hfin]
    have hset := countP_set (isEntryFor key) t.slots i (.entry key value) hi
    rw [hent] at hset
    simp [isEntryFor] at hset
    simp only [countKey]
    omega
  · rw [hfin]
    simp only [MemoTable.lookup_with_hash, List.length_set]
    rw [if_neg h0, hlook']
    rfl

/-- C3 witness: a concrete size-8 table whose probe sequence for hash 0
passes a tombstone in slot 0 before reaching the live entry `5 ↦ 77` in
slot 1; inserting `5 ↦ 99` updates slot 1 in place. -/
theorem insert_existing_key_updates_in_place_witness :
    ∃ i,
      i < ({ slots := [Slot.tomb, Slot.entry 5 77, Slot.free, Slot.free, Slot.free,
              Slot.free, Slot.free, Slot.free], used := 1, filled := 2 } :
            MemoTable).slots.length ∧
      ({ slots := [Slot.tomb, Slot.entry 5 77, Slot.free, Slot.free, Slot.free,
          Slot.free, Slot.free, Slot.free], used := 1, filled := 2 } :
          MemoTable).slots.getD i .free = .entry 5 77 ∧
      ({ slots := [Slot.tomb, Slot.entry 5 77, Slot.free, Slot.free, Slot.free,
          Slot.free, Slot.free, Slot.free], used := 1, filled := 2 } :
          MemoTable).insert_with_hash 5 99 0 =
        { slots := ({ slots := [Slot.tomb, Slot.entry 5 77, Slot.free, Slot.free,
            Slot.free, Slot.free, Slot.free, Slot.free], used := 1, filled := 2 } :
            MemoTable).slots.set i (.entry 5 99), used := 1, filled := 2 } ∧
      countKey 5 (({ slots := [Slot.tomb, Slot.entry 5 77, Slot.free, Slot.free,
          Slot.free, Slot.free, Slot.free, Slot.free], used := 1, filled := 2 } :
          MemoTable).insert_with_hash 5 99 0).slots =
        countKey 5 [Slot.tomb, Slot.entry 5 77, Slot.free, Slot.free, Slot.free,
          Slot.free, Slot.free, Slot.free] ∧
      (({ slots := [Slot.tomb, Slot.entry 5 77, Slot.free, Slot.free, Slot.free,
          Slot.free, Slot.free, Slot.free], used := 1, filled := 2 } :
          MemoTable).insert_with_hash 5 99 0).lookup_with_hash 5 0 = some 99 :=
  insert_existing_key_updates_in_place
    { slots := [Slot.tomb, Slot.entry 5 77, Slot.free, Slot.free, Slot.free,
        Slot.free, Slot.free, Slot.free], used := 1, filled := 2 }
    5 99 0 77 3 (by decide) (by decide) (by decide)

/-- C8: every memo-table operation preserves the structural invariants:
the slot count stays null-or-a-power-of-two, `used ≤ filled ≤ size` holds,
`insert_with_hash` keeps the invariant and doubles the capacity exactly when
`filled/size` has reached the 70% load factor, `clear` empties the table but
retains its capacity, `shrink_if_large` preserves the invariant (its target
always accommodates the live entries of the reachable, just-cleared tables
it is applied to), and `resize` rehashes exactly the live entries. -/
theorem memo_ops_preserve_invariants (t : MemoTable) (key value hash n k' : Nat)
    (hInv : t.Inv) (hn : n = 2 ^ k') (hun : t.used ≤ n) :
    t.used ≤ t.filled ∧ t.filled ≤ t.slots.length ∧
    (t.insert_with_hash key value hash).Inv ∧
    (t.slots.length ≠ 0 →
      t.filled * LOAD_FACTOR_DEN ≥ t.slots.length * LOAD_FACTOR_NUM →
      (t.insert_with_hash key value hash).slots.length = t.slots.length * 2) ∧
    t.clear.Inv ∧ t.clear.slots.length = t.slots.length ∧
    (t.used ≤ RETAIN_SHRINK_TO → t.shrink_if_large.Inv) ∧
    (t.resize n).Inv ∧ (t.resize n).used = t.used ∧
    countEntries (t.resize n).slots = countEntries t.slots := by
  obtain ⟨hp, hnt, hu, hf⟩ := hInv
  obtain ⟨hInvI, hlenI⟩ := insert_with_hash_inv t key value hash ⟨hp, hnt, hu, hf⟩
  obtain ⟨hInvR, _, husedR, _, hcntR⟩ := resize_spec t n hn ⟨hp, hnt, hu, hf⟩ hun
  refine ⟨?_, ?_, hInvI, ?_, ?_, ?_, ?_, hInvR, husedR, hcntR⟩
  · rw [hu, hf]
    exact List.countP_mono_left fun s _ hs => by
      cases s with
      | free => exact absurd hs (by simp [isEntry])
      | tomb => rfl
      | entry k v => rfl
  · rw [hf]
    exact List.countP_le_length _
  · intro h0 htr
    rw [hlenI, if_neg h0, if_pos htr]
  · have hmap : t.slots.map (fun _ => Slot.free) =
        List.replicate t.slots.length Slot.free := List.map_const' _ _
    refine ⟨?_, ?_, ?_, ?_⟩
    · rcases hp with hsl | ⟨k, hk⟩
      · exact Or.inl (by simp [MemoTable.clear, hsl])
      · exact Or.inr ⟨k, by simp [MemoTable.clear]; exact hk⟩
    · simp only [MemoTable.clear, hmap]
      exact tomb_not_mem_replicate _
    · simp only [MemoTable.clear, hmap]
      rw [countEntries_replicate_free]
    · simp only [MemoTable.clear, hmap]
      rw [countFilled_replicate_free]
  · simp [MemoTable.clear]
  · intro hsmall
    simp only [MemoTable.shrink_if_large]
    by_cases hbig : t.slots.length > RETAIN_MAX_SLOTS
    · rw [if_pos hbig]
      have h13 : RETAIN_SHRINK_TO = 2 ^ 13 := rfl
      exact (resize_spec t RETAIN_SHRINK_TO h13 ⟨hp, hnt, hu, hf⟩ hsmall).1
    · rw [if_neg hbig]
      exact ⟨hp, hnt, hu, hf⟩

/-- C8 witness: the operations applied to a fresh table. -/
theorem memo_ops_preserve_invariants_witness :
    MemoTable.new.used ≤ MemoTable.new.filled ∧
    MemoTable.new.filled ≤ MemoTable.new.slots.length ∧
    (MemoTable.new.insert_with_hash 7 42 (hash_pointer 7)).Inv ∧
    (MemoTable.new.slots.length ≠ 0 →
      MemoTable.new.filled * LOAD_FACTOR_DEN ≥
        MemoTable.new.slots.length * LOAD_FACTOR_NUM →
      (MemoTable.new.insert_with_hash 7 42 (hash_pointer 7)).slots.length =
        MemoTable.new.slots.length * 2) ∧
    MemoTable.new.clear.Inv ∧
    MemoTable.new.clear.slots.length = MemoTable.new.slots.length ∧
    (MemoTable.new.used ≤ RETAIN_SHRINK_TO → MemoTable.new.shrink_if_large.Inv) ∧
    (MemoTable.new.resize 16).Inv ∧ (MemoTable.new.resize 16).used = MemoTable.new.used ∧
    countEntries (MemoTable.new.resize 16).slots = countEntries MemoTable.new.slots :=
  memo_ops_preserve_invariants MemoTable.new 7 42 (hash_pointer 7) 16 4
    ⟨Or.inl rfl, by decide, rfl, rfl⟩ (by norm_num) (by decide)

/-- C9: the unconditional linear-probe loops of lookup and insert terminate
for every key and hash under the precondition `filled < size` on a
power-of-two table whose `filled` counter is accurate: each step advances
the index by one modulo `size`, so within `size` steps the probe reaches a
null slot or the matching key — formally, at fuel `size` neither loop is
ever cut off. -/
theorem probe_loops_terminate (t : MemoTable) (key value hash k : Nat)
    (hk : t.slots.length = 2 ^ k) (hf : t.filled = countFilled t.slots)
    (hlt : t.filled < t.slots.length) :
    probeLookup t.slots key (hash &&& (t.slots.length - 1)) t.slots.length ≠ none ∧
    probeInsert t.slots key value (hash &&& (t.slots.length - 1)) none
      t.slots.length ≠ none := by
  have hflt : countFilled t.slots < t.slots.length := by omega
  obtain ⟨e, he, hefree⟩ := exists_free_slot hflt
  have hidx : hash &&& (t.slots.length - 1) < t.slots.length := mask_lt hk _
  obtain ⟨j, hj, hwin⟩ := free_in_window hidx he hefree
  exact ⟨probeLookup_isSome t.slots key hk t.slots.length _ hidx ⟨j, hj, hwin⟩,
    probeInsert_isSome t.slots key value hk t.slots.length _ none hidx ⟨j, hj, hwin⟩⟩

/-- C9 witness: a half-empty concrete table. -/
theorem probe_loops_terminate_witness :
    probeLookup [Slot.entry 3 9, Slot.free] 12 (hash_pointer 12 &&& 1) 2 ≠ none ∧
    probeInsert [Slot.entry 3 9, Slot.free] 12 5 (hash_pointer 12 &&& 1) none 2 ≠ none := by
  have h := probe_loops_terminate
    { slots := [Slot.entry 3 9, Slot.free], used := 1, filled := 1 }
    12 5 (hash_pointer 12) 1 (by decide) (by decide) (by decide)
  exact h

/-- C10: looking up any key in a memo table whose slot array has never been
allocated returns "not found" without probing — the explicit null-array
guard returns early, before the probe mask `size - 1` would be computed, so
the lookup is total on the fresh table. -/
theorem lookup_unallocated_total (t : MemoTable) (key hash : Nat)
    (h : t.slots = []) : t.lookup_with_hash key hash = none := by
  simp only [MemoTable.lookup_with_hash]
  rw [if_pos (by rw [h]; rfl)]

/-- C10 witness: the fresh table. -/
theorem lookup_unallocated_total_witness :
    MemoTable.new.lookup_with_hash 5 (hash_pointer 5) = none :=
  lookup_unallocated_total MemoTable.new 5 (hash_pointer 5) rfl

/-! ### Claim theorems for the deep-copy walk -/

/-- C2: a node classified AtomicImmutable is cloned to itself — same
identity — with zero hashing and zero memo interaction.  First conjunct:
the generic walk (src/rust/deepcopy_impl.rs) returns any immutable-literal
node unchanged with the whole state untouched, counters included, for every
memo implementation.  Second conjunct: the entry of src/deepcopy.rs, whose
`is_atomic_immutable` additionally covers type objects, short-circuits on
every AtomicImmutable node (markers, numeric scalars, immutable text/byte
scalars, and type objects) before any hashing or memo code can run,
whatever the dispatch path would do. -/
theorem atomic_immutable_shares_identity :
    (∀ (σ : Type) (M : MemoImpl σ) (fuel x : Nat) (s : DCState σ) (o : PyObj),
      heapGet s.heap x = some o → isImmutableLiteral o = true →
      deepcopy_recursive M (fuel + 1) x s = .ok (x, s)) ∧
    (∀ (σ : Type) (dispatch : Nat → DCState σ → DCRes σ) (x : Nat)
      (s : DCState σ) (o : PyObj),
      heapGet s.heap x = some o → is_atomic_immutable o = true →
      deepcopyS_entry dispatch x s = .ok (x, s)) := by
  constructor
  · intro σ M fuel x s o ho hlit
    simp [deepcopy_recursive, ho, hlit]
  · intro σ dispatch x s o ho hatom
    simp [deepcopyS_entry, ho, hatom]

/-- C2 witness: an atom under the generic walk, and a type object under the
src/deepcopy.rs entry. -/
theorem atomic_immutable_shares_identity_witness :
    deepcopy_recursive userMemoImpl 1 0 (DCState.init ⟨[(0, PyObj.atom)], 1⟩) =
      .ok (0, DCState.init ⟨[(0, PyObj.atom)], 1⟩) ∧
    deepcopyS_entry (fun _ _ => .error .badRef) 1
        (DCState.init ⟨[(1, PyObj.typeObj)], 2⟩) =
      .ok (1, DCState.init ⟨[(1, PyObj.typeObj)], 2⟩) :=
  ⟨atomic_immutable_shares_identity.1 UserMemo userMemoImpl 0 0
      (DCState.init ⟨[(0, PyObj.atom)], 1⟩) PyObj.atom (by decide) (by decide),
    atomic_immutable_shares_identity.2 UserMemo (fun _ _ => .error .badRef) 1
      (DCState.init ⟨[(1, PyObj.typeObj)], 2⟩) PyObj.typeObj (by decide) (by decide)⟩

/-- C7: with an externally supplied memo that already maps `x`'s identity,
the walk returns the previously memoized clone through the caller-visible
dict (the `UserProvidedMemo` lookup), leaving the heap, the memo and the
hook/insert counters untouched — no decomposition hook and no container
cloner runs for `x`; only one hash computation and one lookup happen. -/
theorem user_memo_passthrough (x c fuel : Nat) (s : DCState UserMemo) (o : PyObj)
    (ho : heapGet s.heap x = some o)
    (hnl : isImmutableLiteral o = false)
    (hm : assocGet s.memo.dict x = some c) :
    deepcopy_recursive userMemoImpl (fuel + 1) x s =
      .ok (c, { s with
        hashes := s.hashes + 1
        lookups := s.lookups + 1 }) := by
  simp [deepcopy_recursive, ho, hnl, userMemoImpl, hm]

/-- C7 witness: a one-node heap whose user memo already maps the node to
clone 5. -/
theorem user_memo_passthrough_witness :
    deepcopy_recursive userMemoImpl 1 0
        { heap := ⟨[(0, PyObj.list [])], 1⟩
          memo := { dict := [(0, 5)], keep := [] }
          hashes := 0, lookups := 0, inserts := 0, hooks := 0 } =
      .ok (5,
        { heap := ⟨[(0, PyObj.list [])], 1⟩
          memo := { dict := [(0, 5)], keep := [] }
          hashes := 1, lookups := 1, inserts := 0, hooks := 0 }) :=
  user_memo_passthrough 0 5 0
    { heap := ⟨[(0, PyObj.list [])], 1⟩
      memo := { dict := [(0, 5)], keep := [] }
      hashes := 0, lookups := 0, inserts := 0, hooks := 0 }
    (PyObj.list []) (by decide) (by decide) (by decide)

/-- C5: when an opaque object's reduce decomposition yields a tuple of more
than 5 elements, the clone fails with the distinguished protocol-violation
error ("pickle protocol expects at most 5-tuple") rather than silently
truncating; when it yields a tuple of fewer than 2 elements, the clone
returns the original object unchanged rather than failing (only the hash,
lookup and hook counters tick). -/
theorem reduce_arity_bounds (x r fuel : Nat) (s : DCState UserMemo)
    (relems : List Nat)
    (ho : heapGet s.heap x = some (.reduceObj (some r)))
    (hr : heapGet s.heap r = some (.tup relems))
    (hm : assocGet s.memo.dict x = none) :
    (5 < relems.length →
      deepcopy_recursive userMemoImpl (fuel + 1) x s = .error .protocolViolation) ∧
    (relems.length < 2 →
      deepcopy_recursive userMemoImpl (fuel + 1) x s =
        .ok (x, { s with
          hashes := s.hashes + 1
          lookups := s.lookups + 1
          hooks := s.hooks + 1 })) := by
  constructor
  · intro h5
    have h2 : ¬ (relems.length < 2) := by omega
    simp [deepcopy_recursive, ho, hm, userMemoImpl, isImmutableLiteral,
      deepcopy_via_reduce, reconstruct_from_reduce, hr, h2, h5]
  · intro hlt
    simp [deepcopy_recursive, ho, hm, userMemoImpl, isImmutableLiteral,
      deepcopy_via_reduce, reconstruct_from_reduce, hr, hlt]

/-- C5 witness: decompositions of arity 6 (hard error) and arity 1 (return
the original unchanged), on one heap. -/
theorem reduce_arity_bounds_witness :
    (deepcopy_recursive userMemoImpl 1 0
        (DCState.init ⟨[(0, PyObj.reduceObj (some 1)),
          (1, PyObj.tup [2, 2, 2, 2, 2, 2]), (2, PyObj.atom)], 3⟩) =
      .error .protocolViolation) ∧
    (deepcopy_recursive userMemoImpl 1 3
        (DCState.init ⟨[(3, PyObj.reduceObj (some 4)), (4, PyObj.tup [2]),
          (2, PyObj.atom)], 5⟩) =
      .ok (3, { DCState.init ⟨[(3, PyObj.reduceObj (some 4)), (4, PyObj.tup [2]),
          (2, PyObj.atom)], 5⟩ with
        hashes := 1
        lookups := 1
        hooks := 1 })) :=
  ⟨(reduce_arity_bounds 0 1 0
      (DCState.init ⟨[(0, PyObj.reduceObj (some 1)),
        (1, PyObj.tup [2, 2, 2, 2, 2, 2]), (2, PyObj.atom)], 3⟩)
      [2, 2, 2, 2, 2, 2] (by decide) (by decide) (by decide)).1 (by decide),
    (reduce_arity_bounds 3 4 0
      (DCState.init ⟨[(3, PyObj.reduceObj (some 4)), (4, PyObj.tup [2]),
        (2, PyObj.atom)], 5⟩)
      [2] (by decide) (by decide) (by decide)).2 (by decide)⟩

/-- C1: a growable sequence (list) that contains itself as its own single
element clones successfully and terminates (any recursion budget of at
least 2 suffices, and the result is the same for all of them), and the
single element of the returned clone is the clone itself — identity-equal
to the clone `h.next`, not to the original `r`.  This rests on
`deepcopy_list` registering the fresh clone in the memo under the
original's identity before recursing: the self-referential child finds the
in-progress clone by memo lookup. -/
theorem deepcopy_list_cycle_safe (r fuel : Nat) (h : Heap)
    (hr : heapGet h r = some (.list [r])) (hf : h.Fresh) :
    ∃ s' : DCState UserMemo,
      deepcopy_recursive userMemoImpl (fuel + 2) r (DCState.init h) =
        .ok (h.next, s') ∧
      h.next ≠ r ∧
      heapGet s'.heap h.next = some (.list [h.next]) := by
  have hlt : r < h.next := heapGet_lt_next hf hr
  have hrn : h.next ≠ r := by omega
  have hga1 : heapGet ⟨(h.next, PyObj.list [0]) :: h.objs, h.next + 1⟩ r =
      some (.list [r]) := by
    simp only [heapGet, List.find?_cons]
    have hb : (h.next == r) = false := by simp; omega
    rw [hb]
    exact hr
  have hga2 : heapGet ⟨(h.next, PyObj.list [0]) :: h.objs, h.next + 1⟩ h.next =
      some (.list [0]) := by
    simp [heapGet, List.find?_cons]
  refine
    ⟨{ heap :=
         Heap.setObj ⟨(h.next, PyObj.list [0]) :: h.objs, h.next + 1⟩ h.next
           (.list [h.next])
       memo := { dict := [(r, h.next)], keep := [r, r] }
       hashes := 3
       lookups := 2
       inserts := 1
       hooks := 0 }, ?_, hrn, ?_⟩
  · simp [deepcopy_recursive, deepcopy_list, cloneListElems, listAssign,
      isImmutableLiteral, DCState.init, userMemoImpl, assocGet, assocSet,
      Heap.alloc, hr, hga1, hga2]
  · exact heapGet_setObj_self _ hga2

/-- C1 witness: the one-node heap `0 ↦ [0]`. -/
theorem deepcopy_list_cycle_safe_witness :
    ∃ s' : DCState UserMemo,
      deepcopy_recursive userMemoImpl 2 0 (DCState.init ⟨[(0, PyObj.list [0])], 1⟩) =
        .ok (1, s') ∧
      (1 : Nat) ≠ 0 ∧
      heapGet s'.heap 1 = some (.list [1]) :=
  deepcopy_list_cycle_safe 0 0 ⟨[(0, PyObj.list [0])], 1⟩ (by decide)
    (by intro p hp; simp at hp; rw [hp]; decide)

theorem heapGet_tupAssign_ne (h : Heap) (t i v j : Nat) (hne : j ≠ t) :
    heapGet (tupAssign h t i v) j = heapGet h j := by
  simp only [tupAssign]
  cases hg : heapGet h t with
  | none => rfl
  | some o =>
    cases o with
    | tup es => exact heapGet_setObj_ne h t j _ hne
    | atom => rfl
    | noneObj => rfl
    | typeObj => rfl
    | list es => rfl
    | dict ps => rfl
    | setObj es => rfl
    | frozen es => rfl
    | bytearr d => rfl
    | reduceObj r => rfl
    | constructed a b c d e => rfl

/-- A node that is an immutable literal, or that the user memo already maps
to itself, clones to itself: only the hash/lookup counters may tick. -/
theorem dc_selfclone (fuel e : Nat) (s : DCState UserMemo)
    (hyp : heapGet s.heap e = some PyObj.atom ∨
      heapGet s.heap e = some PyObj.noneObj ∨
      assocGet s.memo.dict e = some e ∧ ∃ o, heapGet s.heap e = some o) :
    ∃ hsh lks,
      deepcopy_recursive userMemoImpl (fuel + 1) e s =
        .ok (e, { s with hashes := hsh, lookups := lks }) := by
  rcases hyp with he | he | ⟨hm, o, he⟩
  · exact ⟨s.hashes, s.lookups, by simp [deepcopy_recursive, he, isImmutableLiteral]⟩
  · exact ⟨s.hashes, s.lookups, by simp [deepcopy_recursive, he, isImmutableLiteral]⟩
  · cases hlit : isImmutableLiteral o with
    | true =>
      exact ⟨s.hashes, s.lookups, by simp [deepcopy_recursive, he, hlit]⟩
    | false =>
      exact ⟨s.hashes + 1, s.lookups + 1,
        by simp [deepcopy_recursive, he, hlit, userMemoImpl, hm]⟩

/-- The `deepcopy_tuple` element loop, when every element clones to itself:
`all_identical` stays true, the memo and the insert/hook counters are
untouched, and the heap changes only at the candidate clone. -/
theorem cloneTup_selfclones (fuel newTup : Nat) :
    ∀ (elems : List Nat) (i : Nat) (s : DCState UserMemo),
      (∀ e ∈ elems,
        (heapGet s.heap e = some PyObj.atom ∨
         heapGet s.heap e = some PyObj.noneObj ∨
         assocGet s.memo.dict e = some e ∧ ∃ o, heapGet s.heap e = some o) ∧
        e ≠ newTup) →
      ∃ s' : DCState UserMemo,
        cloneTupElems (deepcopy_recursive userMemoImpl (fuel + 1)) newTup elems i
          true s = .ok (true, s') ∧
        s'.memo = s.memo ∧ s'.inserts = s.inserts ∧ s'.hooks = s.hooks ∧
        (∀ j, j ≠ newTup → heapGet s'.heap j = heapGet s.heap j) := by
  intro elems
  induction elems with
  | nil =>
    intro i s _
    exact ⟨s, rfl, rfl, rfl, rfl, fun _ _ => rfl⟩
  | cons e rest ih =>
    intro i s hyp
    obtain ⟨hsh, lks, hdc⟩ := dc_selfclone fuel e s (hyp e (List.mem_cons_self e rest)).1
    have hstep :
        cloneTupElems (deepcopy_recursive userMemoImpl (fuel + 1)) newTup
            (e :: rest) i true s =
          cloneTupElems (deepcopy_recursive userMemoImpl (fuel + 1)) newTup rest
            (i + 1) true
            { s with
              heap := tupAssign s.heap newTup i e
              hashes := hsh
              lookups := lks } := by
      simp [cloneTupElems, hdc]
    set s₂ : DCState UserMemo :=
      { s with
        heap := tupAssign s.heap newTup i e
        hashes := hsh
        lookups := lks } with hs₂
    have hyp' : ∀ e' ∈ rest,
        (heapGet s₂.heap e' = some PyObj.atom ∨
         heapGet s₂.heap e' = some PyObj.noneObj ∨
         assocGet s₂.memo.dict e' = some e' ∧ ∃ o, heapGet s₂.heap e' = some o) ∧
        e' ≠ newTup := by
      intro e' he'
      obtain ⟨hd, hne⟩ := hyp e' (List.mem_cons_of_mem e he')
      have hsame : heapGet s₂.heap e' = heapGet s.heap e' := by
        rw [hs₂]
        exact heapGet_tupAssign_ne s.heap newTup i e e' hne
      constructor
      · rcases hd with hd | hd | ⟨hmd, o, hd⟩
        · exact Or.inl (by rw [hsame]; exact hd)
        · exact Or.inr (Or.inl (by rw [hsame]; exact hd))
        · exact Or.inr (Or.inr ⟨hmd, o, by rw [hsame]; exact hd⟩)
      · exact hne
    obtain ⟨s', hseq, hm', hi', hh', hg'⟩ := ih (i + 1) s₂ hyp'
    refine ⟨s', by rw [hstep]; exact hseq, hm', hi', hh', ?_⟩
    intro j hj
    rw [hg' j hj, hs₂]
    exact heapGet_tupAssign_ne s.heap newTup i e j hj

/-- Dispatch step: a tuple node that is not in the memo is handed to
`deepcopy_tuple` with the once-computed hash. -/
theorem dc_step_tuple {σ : Type} (M : MemoImpl σ) (fuel x : Nat) (s : DCState σ)
    (elems : List Nat)
    (ho : heapGet s.heap x = some (.tup elems))
    (hm : M.lookup s.memo x (hash_pointer x) = none) :
    deepcopy_recursive M (fuel + 1) x s =
      deepcopy_tuple M (deepcopy_recursive M fuel) x (hash_pointer x) elems
        { s with hashes := s.hashes + 1, lookups := s.lookups + 1 } := by
  simp only [deepcopy_recursive]
  rw [ho]
  show (match M.lookup
      ({ s with hashes := s.hashes + 1, lookups := s.lookups + 1 } : DCState σ).memo
      x (hash_pointer x) with
    | some cached =>
      Except.ok (cached, { s with hashes := s.hashes + 1, lookups := s.lookups + 1 })
    | none =>
      deepcopy_tuple M (deepcopy_recursive M fuel) x (hash_pointer x) elems
        { s with hashes := s.hashes + 1, lookups := s.lookups + 1 }) = _
  rw [show M.lookup
      ({ s with hashes := s.hashes + 1, lookups := s.lookups + 1 } : DCState σ).memo
      x (hash_pointer x) = none from hm]

/-- C4: a fixed sequence (tuple) whose every element's recursive clone is
identity-equal to its source element — each element an immutable literal or
already memoized to itself — is cloned to the original tuple itself
(identity-equal), the freshly built candidate is discarded, and the
original is not registered in the memo: the memo state and the insert/hook
counters are unchanged. -/
theorem tuple_all_identical_returns_original (x fuel : Nat) (s : DCState UserMemo)
    (elems : List Nat)
    (ho : heapGet s.heap x = some (.tup elems))
    (hm : assocGet s.memo.dict x = none)
    (hf : s.heap.Fresh)
    (hel : ∀ e ∈ elems,
      heapGet s.heap e = some PyObj.atom ∨
      heapGet s.heap e = some PyObj.noneObj ∨
      assocGet s.memo.dict e = some e ∧ ∃ o, heapGet s.heap e = some o) :
    ∃ s' : DCState UserMemo,
      deepcopy_recursive userMemoImpl (fuel + 2) x s = .ok (x, s') ∧
      s'.memo = s.memo ∧ s'.inserts = s.inserts ∧ s'.hooks = s.hooks := by
  set hA : Heap :=
    ⟨(s.heap.next, PyObj.tup (List.replicate elems.length 0)) :: s.heap.objs,
      s.heap.next + 1⟩ with hhA
  set s₁ : DCState UserMemo :=
    { s with
      heap := hA
      hashes := s.hashes + 1
      lookups := s.lookups + 1 } with hs₁
  have hAn : ∀ j, j ≠ s.heap.next → heapGet hA j = heapGet s.heap j := by
    intro j hj
    rw [hhA]
    simp only [heapGet, List.find?_cons]
    have hb : (s.heap.next == j) = false := by simp; omega
    rw [hb]
  have hyp₁ : ∀ e ∈ elems,
      (heapGet s₁.heap e = some PyObj.atom ∨
       heapGet s₁.heap e = some PyObj.noneObj ∨
       assocGet s₁.memo.dict e = some e ∧ ∃ o, heapGet s₁.heap e = some o) ∧
      e ≠ s.heap.next := by
    intro e he
    have hd := hel e he
    have hex : ∃ o, heapGet s.heap e = some o := by
      rcases hd with hd | hd | ⟨_, o, hd⟩
      · exact ⟨_, hd⟩
      · exact ⟨_, hd⟩
      · exact ⟨_, hd⟩
    obtain ⟨o, hoe⟩ := hex
    have hne : e ≠ s.heap.next := by
      have := heapGet_lt_next hf hoe
      omega
    have hsame : heapGet s₁.heap e = heapGet s.heap e := hAn e hne
    refine ⟨?_, hne⟩
    rcases hd with hd | hd | ⟨hmd, o', hd⟩
    · exact Or.inl (by rw [hsame]; exact hd)
    · exact Or.inr (Or.inl (by rw [hsame]; exact hd))
    · exact Or.inr (Or.inr ⟨hmd, o', by rw [hsame]; exact hd⟩)
  obtain ⟨s', hseq, hm', hi', hh', _⟩ :=
    cloneTup_selfclones fuel s.heap.next elems 0 s₁ hyp₁
  refine ⟨s', ?_, by rw [hm'], by rw [hi'], by rw [hh']⟩
  rw [dc_step_tuple userMemoImpl (fuel + 1) x s elems ho hm]
  simp only [deepcopy_tuple, Heap.alloc]
  rw [← hhA, ← hs₁, hseq]
  rfl

/-- C4 witness: the pair `(a, a)` of one atom clones to itself without being
registered. -/
theorem tuple_all_identical_returns_original_witness :
    ∃ s' : DCState UserMemo,
      deepcopy_recursive userMemoImpl 2 1
          (DCState.init ⟨[(0, PyObj.atom), (1, PyObj.tup [0, 0])], 2⟩) =
        .ok (1, s') ∧
      s'.memo = (DCState.init ⟨[(0, PyObj.atom), (1, PyObj.tup [0, 0])], 2⟩).memo ∧
      s'.inserts = 0 ∧ s'.hooks = 0 :=
  tuple_all_identical_returns_original 1 0
    (DCState.init ⟨[(0, PyObj.atom), (1, PyObj.tup [0, 0])], 2⟩) [0, 0]
    (by decide) (by decide)
    (by
      intro p hp
      have hp2 : p = (0, PyObj.atom) ∨ p = (1, PyObj.tup [0, 0]) := by
        simpa [DCState.init] using hp
      rcases hp2 with h | h <;> (rw [h]; decide))
    (by intro e he; simp at he; rw [he]; exact Or.inl (by decide))

/-- One `deepcopy_impl(root, None)`-style call on the two-level heap
`0 ↦ []`, `1 ↦ [0]` with a fresh memo: the root clone is the fresh address
`h.next`, the inner list is cloned afresh at `h.next + 1`, two addresses are
consumed, and every identity below `h.next` is untouched. -/
theorem deepcopy_two_level_step (fuel : Nat) (h : Heap)
    (h0 : heapGet h 0 = some (.list []))
    (h1 : heapGet h 1 = some (.list [0]))
    (hf : h.Fresh) (hn : 2 ≤ h.next) :
    ∃ s' : DCState UserMemo,
      deepcopy_recursive userMemoImpl (fuel + 2) 1 (DCState.init h) =
        .ok (h.next, s') ∧
      s'.heap.next = h.next + 2 ∧
      s'.heap.Fresh ∧
      (∀ j, j < h.next → heapGet s'.heap j = heapGet h j) ∧
      heapGet s'.heap h.next = some (.list [h.next + 1]) := by
  have hb10 : ((1 : Nat) == 0) = false := by decide
  have hga0 : heapGet ⟨(h.next, PyObj.list [0]) :: h.objs, h.next + 1⟩ 0 =
      some (.list []) := by
    simp only [heapGet, List.find?_cons]
    have hb : (h.next == 0) = false := by simp; omega
    rw [hb]
    exact h0
  have hgbN : heapGet ⟨(h.next + 1, PyObj.list []) :: (h.next, PyObj.list [0]) ::
      h.objs, h.next + 2⟩ h.next = some (.list [0]) := by
    simp only [heapGet, List.find?_cons]
    have hb1 : (h.next + 1 == h.next) = false := by simp
    have hb2 : (h.next == h.next) = true := by simp
    rw [hb1, hb2]
    rfl
  have hBfresh : (⟨(h.next + 1, PyObj.list []) :: (h.next, PyObj.list [0]) ::
      h.objs, h.next + 2⟩ : Heap).Fresh := by
    intro p hp
    rcases List.mem_cons.mp hp with hp | hp
    · rw [hp]; simp
    · rcases List.mem_cons.mp hp with hp | hp
      · rw [hp]; simp
      · have := hf p hp
        simp only []
        omega
  refine
    ⟨{ heap :=
         Heap.setObj ⟨(h.next + 1, PyObj.list []) :: (h.next, PyObj.list [0]) ::
           h.objs, h.next + 2⟩ h.next (.list [h.next + 1])
       memo := { dict := [(1, h.next), (0, h.next + 1)], keep := [1, 1, 0, 0] }
       hashes := 4
       lookups := 2
       inserts := 2
       hooks := 0 }, ?_, rfl, ?_, ?_, ?_⟩
  · simp [deepcopy_recursive, deepcopy_list, cloneListElems, listAssign,
      isImmutableLiteral, DCState.init, userMemoImpl, assocGet, assocSet,
      Heap.alloc, h1, hga0, hgbN, hb10]
  · exact Fresh_setObj hBfresh _ _
  · intro j hj
    have hjN : j ≠ h.next := by omega
    rw [heapGet_setObj_ne _ _ _ _ hjN]
    simp only [heapGet, List.find?_cons]
    have hb1 : (h.next + 1 == j) = false := by simp; omega
    have hb2 : (h.next == j) = false := by simp; omega
    rw [hb1, hb2]
  · exact heapGet_setObj_self _ hgbN

/-- C6: `replicate(root, count)` performs `count` independent clone calls
with no memo shared across iterations: on the heap with a mutable root
`1 ↦ [0]` holding the mutable sub-object `0 ↦ []`, the `count` returned
clones are the pairwise-distinct fresh addresses `h.next + 2i`, and each
clone's element is its own freshly cloned sub-object `h.next + 2i + 1` —
never the original `0`, never the root, and never a clone produced by an
earlier iteration (the addresses are pairwise distinct), as would happen if
a previous iteration's memo entry were reused. -/
theorem replicate_independent_clones : ∀ (n fuel : Nat) (h : Heap),
    heapGet h 0 = some (.list []) → heapGet h 1 = some (.list [0]) →
    h.Fresh → 2 ≤ h.next →
    ∃ h' : Heap,
      replicate_impl (fuel + 2) 1 n h =
        .ok ((List.range n).map fun i => h.next + 2 * i, h') ∧
      (∀ j, j < h.next → heapGet h' j = heapGet h j) ∧
      List.Pairwise (fun a b => a ≠ b) ((List.range n).map fun i => h.next + 2 * i) ∧
      (∀ c ∈ (List.range n).map fun i => h.next + 2 * i,
        heapGet h' c = some (.list [c + 1]) ∧ 2 ≤ c ∧ c + 1 ≠ 0 ∧ c ≠ 1) := by
  intro n
  induction n with
  | zero =>
    intro fuel h h0 h1 hf hn
    exact ⟨h, rfl, fun _ _ => rfl, by simp, by simp⟩
  | succ n ih =>
    intro fuel h h0 h1 hf hn
    obtain ⟨s', hrun, hnext', hfresh', hpres, hgetN⟩ :=
      deepcopy_two_level_step fuel h h0 h1 hf hn
    have h0' : heapGet s'.heap 0 = some (.list []) := by
      rw [hpres 0 (by omega)]
      exact h0
    have h1' : heapGet s'.heap 1 = some (.list [0]) := by
      rw [hpres 1 (by omega)]
      exact h1
    have hn' : 2 ≤ s'.heap.next := by omega
    obtain ⟨h'', hrun'', hpres'', _, hmem''⟩ :=
      ih fuel s'.heap h0' h1' hfresh' hn'
    have hlist : ((List.range (n + 1)).map fun i => h.next + 2 * i) =
        h.next :: ((List.range n).map fun i => s'.heap.next + 2 * i) := by
      rw [List.range_succ_eq_map, List.map_cons, List.map_map, hnext']
      have hfun : ((fun i => h.next + 2 * i) ∘ Nat.succ) =
          fun i => h.next + 2 + 2 * i := by
        funext i
        simp only [Function.comp]
        omega
      rw [hfun]
      norm_num
    have hstep : replicate_impl (fuel + 2) 1 (n + 1) h =
        .ok (h.next :: ((List.range n).map fun i => s'.heap.next + 2 * i), h'') := by
      simp only [replicate_impl]
      rw [hrun]
      show (match replicate_impl (fuel + 2) 1 n s'.heap with
        | Except.error e => (Except.error e : Except DCErr (List Nat × Heap))
        | Except.ok (cs, h') => Except.ok (h.next :: cs, h')) = _
      rw [hrun'']
    refine ⟨h'', ?_, ?_, ?_, ?_⟩
    · rw [hstep, hlist]
    · intro j hj
      rw [hpres'' j (by omega), hpres j hj]
    · refine List.Pairwise.map _ (fun a b hab => by omega)
        (List.pairwise_lt_range (n + 1))
    · intro c hc
      obtain ⟨i, hi, hci⟩ := List.mem_map.mp hc
      have hir : i < n + 1 := List.mem_range.mp hi
      cases i with
      | zero =>
        have hcN : c = h.next := by omega
        rw [hcN]
        refine ⟨?_, by omega, by omega, by omega⟩
        rw [hpres'' h.next (by omega)]
        exact hgetN
      | succ j =>
        have hcm : c ∈ (List.range n).map fun i => s'.heap.next + 2 * i := by
          refine List.mem_map.mpr ⟨j, List.mem_range.mpr (by omega), ?_⟩
          omega
        obtain ⟨hg, _, _, _⟩ := hmem'' c hcm
        exact ⟨hg, by omega, by omega, by omega⟩

/-- C6 witness: three replications on the concrete two-level heap. -/
theorem replicate_independent_clones_witness :
    ∃ h' : Heap,
      replicate_impl 2 1 3 ⟨[(0, PyObj.list []), (1, PyObj.list [0])], 2⟩ =
        .ok ((List.range 3).map fun i => 2 + 2 * i, h') ∧
      (∀ j, j < 2 →
        heapGet h' j = heapGet (⟨[(0, PyObj.list []), (1, PyObj.list [0])], 2⟩ : Heap) j) ∧
      List.Pairwise (fun a b => a ≠ b) ((List.range 3).map fun i => 2 + 2 * i) ∧
      (∀ c ∈ (List.range 3).map fun i => 2 + 2 * i,
        heapGet h' c = some (.list [c + 1]) ∧ 2 ≤ c ∧ c + 1 ≠ 0 ∧ c ≠ 1) :=
  replicate_independent_clones 3 0 ⟨[(0, PyObj.list []), (1, PyObj.list [0])], 2⟩
    (by decide) (by decide)
    (by
      intro p hp
      have hp2 : p = (0, PyObj.list []) ∨ p = (1, PyObj.list [0]) := by simpa using hp
      rcases hp2 with hp2 | hp2 <;> (rw [hp2]; decide))
    (by decide)

end Copium
